import Mathlib

/-!
Verification of the markdown-to-ENML conversion core of the
claude-evernote-connector repository (`claude_evernote/client.py`).

Strings are modelled as `List Char`.  The Python functions
`_chat_to_enml` and `_process_inline_formatting` are embedded as
executable Lean functions; `html.escape`, `str.split("\n")`,
`str.strip()` and `str.replace` are modelled from their documented
behaviour on the character sets that occur here, and the two regex
substitutions of the inline formatter are embedded as equivalent
left-to-right scanners.
-/

set_option maxRecDepth 200000

namespace EvernoteConn

/-- The backtick character (code 96), written via `Char.ofNat`. -/
def bq : Char := Char.ofNat 96

/-- The double-quote character (code 34). -/
def qm : Char := Char.ofNat 34

/-- The apostrophe character (code 39). -/
def apos : Char := Char.ofNat 39

/-- The NUL character (code 0), used by the placeholder alphabet. -/
def nul : Char := Char.ofNat 0

/-- Python `html.escape(s, quote=True)` acting on a single character. -/
def htmlEscapeChar (c : Char) : List Char :=
  if c = '&' then "&amp;".data
  else if c = '<' then "&lt;".data
  else if c = '>' then "&gt;".data
  else if c = qm then "&quot;".data
  else if c = apos then "&#x27;".data
  else [c]

/-- Python `html.escape(s, quote=True)`. -/
def htmlEscape (s : List Char) : List Char := (s.map htmlEscapeChar).flatten

/-- Python `content.split("\n")`: the empty string yields one empty line. -/
def splitLines : List Char → List (List Char)
  | [] => [[]]
  | c :: rest =>
    match splitLines rest with
    | [] => [[c]]
    | l :: ls => if c = '\n' then [] :: l :: ls else (c :: l) :: ls

/-- Python whitespace for `str.strip` (ASCII part). -/
def pyIsSpace (c : Char) : Bool :=
  c == ' ' || c == '\t' || c == '\n' || c == '\r' ||
  c == Char.ofNat 11 || c == Char.ofNat 12

/-- Python `line.strip()`. -/
def strip (s : List Char) : List Char :=
  ((s.dropWhile pyIsSpace).reverse.dropWhile pyIsSpace).reverse

/-- Python `s.startswith(p)`, on lists. -/
def startsWith : List Char → List Char → Bool
  | [], _ => true
  | _ :: _, [] => false
  | a :: p, b :: l => a == b && startsWith p l

/-- Number of positions of `l` at which the pattern `p` occurs. -/
def countOcc (p : List Char) : List Char → Nat
  | [] => 0
  | c :: rest => (if startsWith p (c :: rest) then 1 else 0) + countOcc p rest

/-- Python `re.match(r"^\d+\.\s", s)` (on the stripped line) as a Bool. -/
def isNumbered (s : List Char) : Bool :=
  !(s.takeWhile Char.isDigit).isEmpty &&
  (match s.dropWhile Char.isDigit with
   | '.' :: c :: _ => pyIsSpace c
   | _ => false)

/-- Decimal digits of `n`, most significant first, computed with a
structural fuel parameter (any `fuel > n` suffices). -/
def natDigitsAux : Nat → Nat → List Char
  | 0, _ => []
  | fuel + 1, n =>
    if n < 10 then [Char.ofNat (48 + n)]
    else natDigitsAux fuel (n / 10) ++ [Char.ofNat (48 + n % 10)]

/-- Python `str(n)` / `"{}".format(n)` for a natural number: its decimal
digit string, most significant digit first. -/
def natDigits (n : Nat) : List Char := natDigitsAux (n + 1) n

/-- The placeholder token `"\x00CODE{i}\x00"` of the inline formatter. -/
def placeholder (i : Nat) : List Char :=
  nul :: "CODE".data ++ natDigits i ++ [nul]

/-- Left-to-right scan of `re.sub(r"`([^`]+)`", save_code, line)`:
returns the line with each inline-code span replaced by its placeholder,
together with the list of extracted span contents.  The state `some buf`
means a candidate opening backtick has been seen and `buf` holds the
(reversed) non-backtick characters read since. -/
def extractAux : Nat → List Char → Option (List Char) → List Char × List (List Char)
  | _, [], none => ([], [])
  | _, [], some buf => (bq :: buf.reverse, [])
  | i, c :: rest, none =>
    if c = bq then extractAux i rest (some [])
    else
      let (t, cs) := extractAux i rest none
      (c :: t, cs)
  | i, c :: rest, some buf =>
    if c = bq then
      if buf.isEmpty then
        let (t, cs) := extractAux i rest (some [])
        (bq :: t, cs)
      else
        let (t, cs) := extractAux (i + 1) rest none
        (placeholder i ++ t, buf.reverse :: cs)
    else extractAux i rest (some (c :: buf))

/-- Scanner state for the bold substitution
`re.sub(r"\*\*([^*]+)\*\*", r"<strong>\1</strong>", s)`. -/
inductive BoldSt where
  | norm : BoldSt
  | one : BoldSt
  | coll (buf : List Char) : BoldSt
  | cls (buf : List Char) : BoldSt

/-- Left-to-right scan equivalent to the bold regex substitution:
`norm` outside any candidate, `one` after a single asterisk, `coll buf`
after a double asterisk collecting non-asterisk content, `cls buf` after
the first closing asterisk. -/
def subBoldAux : List Char → BoldSt → List Char
  | [], .norm => []
  | [], .one => ['*']
  | [], .coll buf => '*' :: '*' :: buf.reverse
  | [], .cls buf => '*' :: '*' :: buf.reverse ++ ['*']
  | c :: rest, .norm =>
    if c = '*' then subBoldAux rest .one else c :: subBoldAux rest .norm
  | c :: rest, .one =>
    if c = '*' then subBoldAux rest (.coll [])
    else '*' :: c :: subBoldAux rest .norm
  | c :: rest, .coll buf =>
    if c = '*' then
      if buf.isEmpty then '*' :: subBoldAux rest (.coll [])
      else subBoldAux rest (.cls buf)
    else subBoldAux rest (.coll (c :: buf))
  | c :: rest, .cls buf =>
    if c = '*' then
      "<strong>".data ++ buf.reverse ++ "</strong>".data ++ subBoldAux rest .norm
    else '*' :: '*' :: buf.reverse ++ '*' :: c :: subBoldAux rest .norm

/-- The bold substitution `re.sub(r"\*\*([^*]+)\*\*", ...)`. -/
def subBold (s : List Char) : List Char := subBoldAux s .norm

/-- Left-to-right scan equivalent to
`re.sub(r"\*([^*]+)\*", r"<em>\1</em>", s)`; `some buf` means a
candidate opening asterisk has been seen. -/
def subItalicAux : List Char → Option (List Char) → List Char
  | [], none => []
  | [], some buf => '*' :: buf.reverse
  | c :: rest, none =>
    if c = '*' then subItalicAux rest (some [])
    else c :: subItalicAux rest none
  | c :: rest, some buf =>
    if c = '*' then
      if buf.isEmpty then '*' :: subItalicAux rest (some [])
      else "<em>".data ++ buf.reverse ++ "</em>".data ++ subItalicAux rest none
    else subItalicAux rest (some (c :: buf))

/-- The italic substitution `re.sub(r"\*([^*]+)\*", ...)`. -/
def subItalic (s : List Char) : List Char := subItalicAux s none

/-- Scanner for Python `s.replace(pat, repl)`: the counter holds how
many characters of an already-matched pattern occurrence remain to be
skipped before scanning resumes. -/
def replaceAllAux (pat repl : List Char) : List Char → Nat → List Char
  | [], _ => []
  | _ :: rest, Nat.succ k => replaceAllAux pat repl rest k
  | c :: rest, 0 =>
    if pat ≠ [] ∧ startsWith pat (c :: rest) = true then
      repl ++ replaceAllAux pat repl rest (pat.length - 1)
    else
      c :: replaceAllAux pat repl rest 0

/-- Python `s.replace(pat, repl)`: replace every (non-overlapping,
left-to-right) occurrence of `pat` by `repl`. -/
def replaceAll (pat repl : List Char) (s : List Char) : List Char :=
  replaceAllAux pat repl s 0

/-- Style constant `STYLES["code_block"]`. -/
def styleCodeBlock : List Char :=
  "font-family: monospace; background-color: #f5f5f5; padding: 10px; margin: 10px 0; white-space: pre-wrap;".data

/-- Style constant `STYLES["inline_code"]`. -/
def styleInlineCode : List Char :=
  "font-family: monospace; background-color: #f0f0f0; padding: 2px 4px;".data

/-- Style constant `STYLES["human"]`. -/
def styleHuman : List Char :=
  "color: #0066cc; font-weight: bold; margin-top: 15px;".data

/-- Style constant `STYLES["assistant"]`. -/
def styleAssistant : List Char :=
  "color: #009933; font-weight: bold; margin-top: 15px;".data

/-- The fragment `<div style="{style}">` of the f-strings in the source. -/
def divOpen (style : List Char) : List Char :=
  "<div style=".data ++ [qm] ++ style ++ [qm, '>']

/-- The styled inline-code span `<span style="{inline_code}">{inner}</span>`. -/
def inlineCodeSpan (inner : List Char) : List Char :=
  "<span style=".data ++ [qm] ++ styleInlineCode ++ [qm, '>'] ++ inner ++ "</span>".data

/-- The restore loop of `_process_inline_formatting`: for each extracted
code span, in index order, replace its (escaped) placeholder by the
styled span wrapping the escaped content. -/
def restoreAux : Nat → List (List Char) → List Char → List Char
  | _, [], s => s
  | i, code :: cs, s =>
    restoreAux (i + 1) cs
      (replaceAll (htmlEscape (placeholder i)) (inlineCodeSpan (htmlEscape code)) s)

/-- Embedding of `_process_inline_formatting`. -/
def processInlineFormatting (line : List Char) : List Char :=
  restoreAux 0 (extractAux 0 line none).2
    (subItalic (subBold (htmlEscape (extractAux 0 line none).1)))

/-- The flushed fenced-code-block fragment of `_chat_to_enml`. -/
def codeBlockDiv (ls : List (List Char)) : List Char :=
  divOpen styleCodeBlock ++ htmlEscape (List.intercalate ['\n'] ls) ++ "</div>".data

/-- The per-line fragment emitted by `_chat_to_enml` for a line that is
not a fence marker and not inside a code block (the if/elif cascade). -/
def lineFragment (line : List Char) : List Char :=
  if (strip line).isEmpty then "<br/>".data
  else if startsWith "### ".data line then
    "<h3>".data ++ htmlEscape (line.drop 4) ++ "</h3>".data
  else if startsWith "## ".data line then
    "<h2>".data ++ htmlEscape (line.drop 3) ++ "</h2>".data
  else if startsWith "# ".data line then
    "<h1>".data ++ htmlEscape (line.drop 2) ++ "</h1>".data
  else if startsWith "Human:".data line || startsWith "User:".data line then
    divOpen styleHuman ++ htmlEscape line ++ "</div>".data
  else if startsWith "Assistant:".data line || startsWith "Claude:".data line then
    divOpen styleAssistant ++ htmlEscape line ++ "</div>".data
  else if startsWith "- ".data (strip line) || startsWith "* ".data (strip line) then
    "<div>- ".data ++ htmlEscape ((strip line).drop 2) ++ "</div>".data
  else if isNumbered (strip line) then
    "<div>".data ++ htmlEscape line ++ "</div>".data
  else
    "<div>".data ++ processInlineFormatting line ++ "</div>".data

/-- The line loop of `_chat_to_enml`, carrying the `in_code_block` flag
and the code-block accumulator; the empty-input case performs the final
flush of an unterminated fence. -/
def chatLoop : List (List Char) → Bool → List (List Char) → List Char
  | [], inCode, accum =>
    if inCode && !accum.isEmpty then codeBlockDiv accum else []
  | line :: rest, inCode, accum =>
    if startsWith "```".data line then
      if inCode then codeBlockDiv accum ++ chatLoop rest false []
      else chatLoop rest true accum
    else if inCode then chatLoop rest true (accum ++ [line])
    else lineFragment line ++ chatLoop rest false accum

/-- The fixed ENML envelope header of `_chat_to_enml`. -/
def enmlHeader : List Char :=
  "<?xml version=\"1.0\" encoding=\"UTF-8\"?>".data ++
  "<!DOCTYPE en-note SYSTEM \"http://xml.evernote.com/pub/enml2.dtd\">".data ++
  "<en-note>".data

/-- Embedding of `_chat_to_enml`. -/
def chatToEnml (content : List Char) : List Char :=
  enmlHeader ++ chatLoop (splitLines content) false [] ++ "</en-note>".data

/-- The emptiness guard of `save_chat`: it raises `ValueError` exactly
when the content is empty or whitespace-only (`not chat_content or not
chat_content.strip()`). -/
def saveChatRejects (content : List Char) : Bool :=
  content.isEmpty || (strip content).isEmpty

/-! Basic lemmas about `startsWith` and `countOcc`. -/

theorem startsWith_iff {p l : List Char} :
    startsWith p l = true ↔ ∃ t, p ++ t = l := by
  induction p generalizing l with
  | nil => simp [startsWith]
  | cons a p ih =>
    cases l with
    | nil => simp [startsWith]
    | cons b l =>
      simp only [startsWith, Bool.and_eq_true, beq_iff_eq, ih]
      constructor
      · rintro ⟨rfl, t, rfl⟩
        exact ⟨t, rfl⟩
      · rintro ⟨t, h⟩
        cases h
        exact ⟨rfl, t, rfl⟩

theorem startsWith_append_self (p t : List Char) :
    startsWith p (p ++ t) = true :=
  startsWith_iff.mpr ⟨t, rfl⟩

theorem countOcc_cons (p : List Char) (c : Char) (l : List Char) :
    countOcc p (c :: l) = (if startsWith p (c :: l) then 1 else 0) + countOcc p l :=
  rfl

/-- Positionwise comparison: `true` iff the two lists differ at some
index below both lengths. -/
def hasMismatch : List Char → List Char → Bool
  | [], _ => false
  | _ :: _, [] => false
  | a :: p, b :: l => a != b || hasMismatch p l

theorem not_startsWith_of_mismatch {p x : List Char} (r : List Char)
    (h : hasMismatch p x = true) : startsWith p (x ++ r) = false := by
  induction p generalizing x with
  | nil => simp [hasMismatch] at h
  | cons a p ih =>
    cases x with
    | nil => simp [hasMismatch] at h
    | cons b x =>
      simp only [hasMismatch, Bool.or_eq_true, bne_iff_ne] at h
      rcases h with h | h
      · simp [startsWith, h]
      · simp [startsWith, ih h]

theorem startsWith_extend {t w : List Char} (z : List Char)
    (h : startsWith t w = true) : startsWith t (w ++ z) = true := by
  rcases startsWith_iff.mp h with ⟨u, rfl⟩
  rw [List.append_assoc]
  exact startsWith_append_self t (u ++ z)

/-- The pattern `p` cannot match at any position that lies inside `l`:
appending any continuation leaves the number of occurrences of `p` equal
to the number of occurrences in the continuation alone. -/
def Shields (p l : List Char) : Prop :=
  ∀ r, countOcc p (l ++ r) = countOcc p r

theorem shields_nil (p : List Char) : Shields p [] := fun _ => rfl

theorem shields_append {p x y : List Char} (hx : Shields p x) (hy : Shields p y) :
    Shields p (x ++ y) := by
  intro r
  rw [List.append_assoc, hx, hy]

/-- Every position of `l` exhibits an in-bounds mismatch with `p`. -/
def shieldsB (p : List Char) : List Char → Bool
  | [] => true
  | c :: rest => hasMismatch p (c :: rest) && shieldsB p rest

theorem shieldsB_shields {p l : List Char} (h : shieldsB p l = true) :
    Shields p l := by
  induction l with
  | nil => exact shields_nil p
  | cons c rest ih =>
    simp only [shieldsB, Bool.and_eq_true] at h
    intro r
    have h1 : startsWith p ((c :: rest) ++ r) = false :=
      not_startsWith_of_mismatch r h.1
    calc countOcc p ((c :: rest) ++ r)
        = (if startsWith p ((c :: rest) ++ r) then 1 else 0) +
            countOcc p (rest ++ r) := rfl
      _ = countOcc p (rest ++ r) := by rw [h1]; simp
      _ = countOcc p r := ih h.2 r

theorem shields_cons_ne {p : List Char} {a c : Char} {p' l : List Char}
    (hp : p = a :: p') (hc : c ≠ a) (hl : Shields p l) : Shields p (c :: l) := by
  intro r
  rw [List.cons_append, countOcc_cons]
  have : startsWith p (c :: (l ++ r)) = false := by
    subst hp
    simp [startsWith, Ne.symm hc]
  rw [this]
  simpa using hl r

theorem shields_all_ne {p : List Char} {a : Char} {p' l : List Char}
    (hp : p = a :: p') (hl : ∀ c ∈ l, c ≠ a) : Shields p l := by
  induction l with
  | nil => exact shields_nil p
  | cons c rest ih =>
    exact shields_cons_ne hp (hl c (by simp))
      (ih fun c hc => hl c (by simp [hc]))

/-! The tag invariant: every `<` in a produced fragment begins one of a
fixed set of markup-tag openings, each of which disagrees with the
patterns we count within the tag itself. -/

/-- Openings of all tags that the converter ever emits, plus the two
header openings of the fixed envelope. -/
def TAGS : List (List Char) :=
  ["<br".data, "<h1".data, "<h2".data, "<h3".data, "<div".data,
   "<strong".data, "<span".data, "<em".data, "</h1".data, "</h2".data,
   "</h3".data, "</div".data, "</strong".data, "</span".data, "</em".data,
   "<?xml".data, "<!DOCTYPE".data]

/-- Every occurrence of `<` in `l` begins one of the `TAGS`. -/
def Good (l : List Char) : Prop :=
  ∀ a b, l = a ++ '<' :: b → ∃ t ∈ TAGS, startsWith t ('<' :: b) = true

theorem good_nil : Good [] := by
  intro a b h
  exact absurd h (by simp)

theorem good_append {x y : List Char} (hx : Good x) (hy : Good y) :
    Good (x ++ y) := by
  intro a b h
  rcases List.append_eq_append_iff.mp h with ⟨a', _, hyy⟩ | ⟨c', hxx, hcb⟩
  · exact hy a' b hyy
  · cases c' with
    | nil =>
      simp only [List.nil_append] at hcb
      exact hy [] b (by simpa using hcb.symm)
    | cons u c'' =>
      simp only [List.cons_append] at hcb
      injection hcb with hu hb
      rcases hx a c'' (by rw [hxx, hu]) with ⟨t, ht, hst⟩
      refine ⟨t, ht, ?_⟩
      have := startsWith_extend y hst
      simpa [hb] using this

theorem good_suffix {x y : List Char} (h : Good (x ++ y)) : Good y := by
  intro a b hy
  exact h (x ++ a) b (by rw [hy, List.append_assoc])

theorem good_cons {c : Char} {l : List Char} (hc : c ≠ '<') (hl : Good l) :
    Good (c :: l) := by
  intro a b h
  cases a with
  | nil =>
    simp only [List.nil_append] at h
    injection h with h1 _
    exact absurd h1 hc
  | cons u a' =>
    injection h with _ h2
    exact hl a' b h2

theorem good_cons_lt {l : List Char}
    (ht : ∃ t ∈ TAGS, startsWith t ('<' :: l) = true) (hl : Good l) :
    Good ('<' :: l) := by
  intro a b h
  cases a with
  | nil =>
    injection h with _ h2
    exact h2 ▸ ht
  | cons u a' =>
    injection h with _ h2
    exact hl a' b h2

theorem good_of_all_ne {l : List Char} (h : ∀ c ∈ l, c ≠ '<') : Good l := by
  intro a b hl
  exact absurd (h '<' (by rw [hl]; simp)) (by simp)

/-- Boolean check of `Good` for concrete fragments. -/
def goodB : List Char → Bool
  | [] => true
  | c :: rest =>
    (c != '<' || TAGS.any fun t => startsWith t (c :: rest)) && goodB rest

theorem goodB_good {l : List Char} (h : goodB l = true) : Good l := by
  induction l with
  | nil => exact good_nil
  | cons c rest ih =>
    simp only [goodB, Bool.and_eq_true, Bool.or_eq_true, bne_iff_ne] at h
    obtain ⟨h1, h2⟩ := h
    rcases h1 with h1 | h1
    · exact good_cons h1 (ih h2)
    · rcases List.any_eq_true.mp h1 with ⟨t, ht, hst⟩
      by_cases hc : c = '<'
      · subst hc
        exact good_cons_lt ⟨t, ht, hst⟩ (ih h2)
      · exact good_cons hc (ih h2)

/-- A `Good` list shields any pattern that begins with `<` and has an
in-bounds mismatch with every tag opening. -/
theorem good_shields {p q l : List Char} (hp : p = '<' :: q)
    (hm : ∀ t ∈ TAGS, hasMismatch p t = true) (hl : Good l) : Shields p l := by
  induction l with
  | nil => exact shields_nil p
  | cons c rest ih =>
    have hrest : Good rest := good_suffix (x := [c]) hl
    intro r
    have hno : startsWith p (c :: (rest ++ r)) = false := by
      by_cases hc : c = '<'
      · subst hc
        rcases hl [] rest rfl with ⟨t, ht, hst⟩
        rcases startsWith_iff.mp hst with ⟨u, hu⟩
        have : ('<' :: rest) ++ r = t ++ (u ++ r) := by
          rw [← List.append_assoc, hu]
        rw [show '<' :: (rest ++ r) = ('<' :: rest) ++ r from rfl, this]
        exact not_startsWith_of_mismatch (u ++ r) (hm t ht)
      · subst hp
        simp [startsWith, Ne.symm hc]
    calc countOcc p ((c :: rest) ++ r)
        = (if startsWith p (c :: (rest ++ r)) then 1 else 0) +
            countOcc p (rest ++ r) := rfl
      _ = countOcc p (rest ++ r) := by rw [hno]; simp
      _ = countOcc p r := ih hrest r

/-! Lemmas about the HTML escape. -/

theorem all_ne_of_allB {a : Char} {l : List Char}
    (h : l.all (fun x => x != a) = true) : ∀ x ∈ l, x ≠ a := by
  intro x hx
  simpa using List.all_eq_true.mp h x hx

theorem htmlEscape_cons (c : Char) (s : List Char) :
    htmlEscape (c :: s) = htmlEscapeChar c ++ htmlEscape s := rfl

theorem htmlEscape_append (a b : List Char) :
    htmlEscape (a ++ b) = htmlEscape a ++ htmlEscape b := by
  simp [htmlEscape]

theorem htmlEscapeChar_no_angle (c : Char) :
    ∀ x ∈ htmlEscapeChar c, x ≠ '<' ∧ x ≠ '>' := by
  intro x hx
  by_cases h1 : c = '&'
  · rw [htmlEscapeChar, if_pos h1] at hx
    exact ⟨all_ne_of_allB (by decide) x hx, all_ne_of_allB (by decide) x hx⟩
  by_cases h2 : c = '<'
  · rw [htmlEscapeChar, if_neg h1, if_pos h2] at hx
    exact ⟨all_ne_of_allB (by decide) x hx, all_ne_of_allB (by decide) x hx⟩
  by_cases h3 : c = '>'
  · rw [htmlEscapeChar, if_neg h1, if_neg h2, if_pos h3] at hx
    exact ⟨all_ne_of_allB (by decide) x hx, all_ne_of_allB (by decide) x hx⟩
  by_cases h4 : c = qm
  · rw [htmlEscapeChar, if_neg h1, if_neg h2, if_neg h3, if_pos h4] at hx
    exact ⟨all_ne_of_allB (by decide) x hx, all_ne_of_allB (by decide) x hx⟩
  by_cases h5 : c = apos
  · rw [htmlEscapeChar, if_neg h1, if_neg h2, if_neg h3, if_neg h4, if_pos h5] at hx
    exact ⟨all_ne_of_allB (by decide) x hx, all_ne_of_allB (by decide) x hx⟩
  · rw [htmlEscapeChar, if_neg h1, if_neg h2, if_neg h3, if_neg h4, if_neg h5] at hx
    simp only [List.mem_singleton] at hx
    subst hx
    exact ⟨h2, h3⟩

theorem htmlEscape_no_angle (s : List Char) :
    ∀ x ∈ htmlEscape s, x ≠ '<' ∧ x ≠ '>' := by
  intro x hx
  unfold htmlEscape at hx
  rcases List.mem_flatten.mp hx with ⟨l, hl, hxl⟩
  rcases List.mem_map.mp hl with ⟨c, _, rfl⟩
  exact htmlEscapeChar_no_angle c x hxl

theorem good_htmlEscape (s : List Char) : Good (htmlEscape s) :=
  good_of_all_ne fun c hc => (htmlEscape_no_angle s c hc).1

/-! Good-ness of the inline pipeline: bold pass. -/

/-- The pending-content buffer of a bold-scanner state. -/
def boldBuf : BoldSt → List Char
  | .norm => []
  | .one => []
  | .coll b => b
  | .cls b => b

theorem good_subBoldAux (l : List Char) :
    ∀ st : BoldSt, (∀ c ∈ l, c ≠ '<') → (∀ c ∈ boldBuf st, c ≠ '<') →
      Good (subBoldAux l st) := by
  induction l with
  | nil =>
    intro st _ hb
    cases st with
    | norm => exact good_nil
    | one => exact good_of_all_ne (by decide)
    | coll buf =>
      refine good_cons (by decide) (good_cons (by decide) (good_of_all_ne ?_))
      intro c hc
      exact hb c (List.mem_reverse.mp hc)
    | cls buf =>
      refine good_cons (by decide) (good_cons (by decide)
        (good_append (good_of_all_ne ?_) (good_of_all_ne (by decide))))
      intro c hc
      exact hb c (List.mem_reverse.mp hc)
  | cons c rest ih =>
    intro st hl hb
    have hc : c ≠ '<' := hl c (by simp)
    have hrest : ∀ x ∈ rest, x ≠ '<' := fun x hx => hl x (by simp [hx])
    have hnilbuf : ∀ x ∈ ([] : List Char), x ≠ '<' := by intro x hx; cases hx
    cases st with
    | norm =>
      by_cases h : c = '*'
      · simp only [subBoldAux, if_pos h]
        exact ih .one hrest hnilbuf
      · simp only [subBoldAux, if_neg h]
        exact good_cons hc (ih .norm hrest hnilbuf)
    | one =>
      by_cases h : c = '*'
      · simp only [subBoldAux, if_pos h]
        exact ih (.coll []) hrest hnilbuf
      · simp only [subBoldAux, if_neg h]
        exact good_cons (by decide) (good_cons hc (ih .norm hrest hnilbuf))
    | coll buf =>
      by_cases h : c = '*'
      · by_cases he : buf.isEmpty
        · simp only [subBoldAux, if_pos h, if_pos he]
          exact good_cons (by decide) (ih (.coll []) hrest hnilbuf)
        · simp only [subBoldAux, if_pos h, if_neg he]
          exact ih (.cls buf) hrest hb
      · simp only [subBoldAux, if_neg h]
        refine ih (.coll (c :: buf)) hrest ?_
        intro x hx
        rcases List.mem_cons.mp hx with rfl | hx
        · exact hc
        · exact hb x hx
    | cls buf =>
      by_cases h : c = '*'
      · simp only [subBoldAux, if_pos h]
        refine good_append (good_append (good_append (goodB_good (by decide))
          (good_of_all_ne ?_)) (goodB_good (by decide))) (ih .norm hrest hnilbuf)
        intro x hx
        exact hb x (List.mem_reverse.mp hx)
      · simp only [subBoldAux, if_neg h]
        refine good_cons (by decide) (good_cons (by decide) (good_append
          (good_of_all_ne ?_) (good_cons (by decide) (good_cons hc
            (ih .norm hrest hnilbuf)))))
        intro x hx
        exact hb x (List.mem_reverse.mp hx)

theorem good_subBold {l : List Char} (hl : ∀ c ∈ l, c ≠ '<') :
    Good (subBold l) := by
  refine good_subBoldAux l .norm hl ?_
  intro x hx
  cases hx

/-! Good-ness of the inline pipeline: italic pass. -/

theorem tags_shape : ∀ t ∈ TAGS, t.head? = some '<' ∧
    ∀ c ∈ t.tail, c ≠ '*' ∧ c ≠ nul ∧ c ≠ '<' := by decide

theorem tag_destruct {t : List Char} (ht : t ∈ TAGS) :
    ∃ t', t = '<' :: t' ∧ ∀ c ∈ t', c ≠ '*' ∧ c ≠ nul ∧ c ≠ '<' := by
  obtain ⟨hh, htl⟩ := tags_shape t ht
  cases t with
  | nil => simp at hh
  | cons u t' =>
    simp only [List.head?_cons, Option.some.injEq] at hh
    exact ⟨t', by rw [hh], htl⟩

theorem startsWith_confine {t : List Char} {x : Char} {a z : List Char}
    (ht : ∀ c ∈ t, c ≠ x) (h : startsWith t (a ++ x :: z) = true) :
    startsWith t a = true := by
  induction t generalizing a with
  | nil => rfl
  | cons u t' ih =>
    cases a with
    | nil =>
      simp only [List.nil_append, startsWith, Bool.and_eq_true, beq_iff_eq] at h
      exact absurd h.1 (ht u (by simp))
    | cons v a' =>
      simp only [List.cons_append, startsWith, Bool.and_eq_true] at h ⊢
      exact ⟨h.1, ih (fun c hc => ht c (by simp [hc])) h.2⟩

theorem subItalicAux_copy {x : List Char} (z : List Char)
    (hx : ∀ c ∈ x, c ≠ '*') :
    subItalicAux (x ++ z) none = x ++ subItalicAux z none := by
  induction x with
  | nil => rfl
  | cons c x ih =>
    have hc : c ≠ '*' := hx c (by simp)
    simp only [List.cons_append, subItalicAux, if_neg hc, List.append_eq]
    rw [ih fun d hd => hx d (by simp [hd])]

theorem good_subItalicAux (l : List Char) :
    ∀ st : Option (List Char),
      (match st with
       | none => Good l
       | some buf => Good (buf.reverse ++ l)) →
      Good (subItalicAux l st) := by
  induction l with
  | nil =>
    intro st hst
    cases st with
    | none => exact good_nil
    | some buf =>
      refine good_cons (by decide) ?_
      simp only [List.append_nil] at hst
      exact hst
  | cons c rest ih =>
    intro st hst
    cases st with
    | none =>
      by_cases h : c = '*'
      · simp only [subItalicAux, if_pos h]
        exact ih (some []) (by simpa using good_suffix (x := [c]) hst)
      · simp only [subItalicAux, if_neg h]
        by_cases hc : c = '<'
        · subst hc
          rcases hst [] rest rfl with ⟨t, ht, hstw⟩
          rcases tag_destruct ht with ⟨t', rfl, ht'⟩
          simp only [startsWith, Bool.and_eq_true, beq_iff_eq] at hstw
          rcases startsWith_iff.mp hstw.2 with ⟨z, hz⟩
          refine good_cons_lt ⟨'<' :: t', ht, ?_⟩
            (ih none (good_suffix (x := ['<']) hst))
          have hcopy : subItalicAux rest none = t' ++ subItalicAux z none := by
            rw [← hz, subItalicAux_copy _ (fun d hd => (ht' d hd).1)]
          rw [hcopy]
          simp only [startsWith, beq_self_eq_true, Bool.true_and]
          exact startsWith_append_self t' _
        · exact good_cons hc (ih none (good_suffix (x := [c]) hst))
    | some buf =>
      by_cases h : c = '*'
      · by_cases he : buf.isEmpty
        · simp only [subItalicAux, if_pos h, if_pos he]
          refine good_cons (by decide) (ih (some []) ?_)
          simp only [List.reverse_nil, List.nil_append]
          have hb : buf = [] := by simpa [List.isEmpty_iff] using he
          subst hb
          simp only [List.reverse_nil, List.nil_append] at hst
          exact good_suffix (x := [c]) hst
        · simp only [subItalicAux, if_pos h, if_neg he]
          subst h
          have hbufrev : Good buf.reverse := by
            intro a b hab
            have := hst a (b ++ '*' :: rest) (by rw [hab]; simp)
            rcases this with ⟨t, ht, hstw⟩
            refine ⟨t, ht, ?_⟩
            rcases tag_destruct ht with ⟨t', rfl, ht'⟩
            exact startsWith_confine (x := '*')
              (by
                intro d hd
                rcases List.mem_cons.mp hd with rfl | hd
                · decide
                · exact (ht' d hd).1)
              (by simpa using hstw)
          have hrest : Good rest := by
            have h1 : Good ('*' :: rest) := good_suffix (x := buf.reverse) hst
            exact good_suffix (x := ['*']) h1
          exact good_append (good_append (good_append (goodB_good (by decide))
            hbufrev) (goodB_good (by decide))) (ih none hrest)
      · simp only [subItalicAux, if_neg h]
        refine ih (some (c :: buf)) ?_
        simp only [List.reverse_cons, List.append_assoc, List.singleton_append]
        exact hst

theorem good_subItalic {l : List Char} (hl : Good l) : Good (subItalic l) :=
  good_subItalicAux l none hl

/-! Good-ness of the inline pipeline: restore pass (`str.replace`). -/

theorem replaceAll_nil (pat repl : List Char) : replaceAll pat repl [] = [] := rfl

theorem replaceAllAux_drop (pat repl : List Char) (k : Nat) :
    ∀ rest : List Char,
      replaceAllAux pat repl rest k = replaceAllAux pat repl (rest.drop k) 0 := by
  induction k with
  | zero => intro rest; rw [List.drop_zero]
  | succ k ih =>
    intro rest
    cases rest with
    | nil => rfl
    | cons c r =>
      rw [List.drop_succ_cons]
      show replaceAllAux pat repl r k = _
      exact ih r

theorem replaceAll_cons (pat repl : List Char) (c : Char) (rest : List Char) :
    replaceAll pat repl (c :: rest) =
      if pat ≠ [] ∧ startsWith pat (c :: rest) = true then
        repl ++ replaceAll pat repl (rest.drop (pat.length - 1))
      else c :: replaceAll pat repl rest := by
  show (if pat ≠ [] ∧ startsWith pat (c :: rest) = true then
          repl ++ replaceAllAux pat repl rest (pat.length - 1)
        else c :: replaceAllAux pat repl rest 0) = _
  rw [replaceAllAux_drop]
  rfl

theorem replaceAll_copy {pat : List Char} {h0 : Char} {pt : List Char}
    (hp : pat = h0 :: pt) (repl : List Char) {x : List Char} (z : List Char)
    (hx : ∀ c ∈ x, c ≠ h0) :
    replaceAll pat repl (x ++ z) = x ++ replaceAll pat repl z := by
  induction x with
  | nil => simp
  | cons c x ih =>
    have hc : c ≠ h0 := hx c (by simp)
    have hsw : startsWith pat (c :: (x ++ z)) = false := by
      subst hp
      simp [startsWith, Ne.symm hc]
    have hni : ¬(pat ≠ [] ∧ startsWith pat (c :: (x ++ z)) = true) := by
      intro hcontra
      rw [hsw] at hcontra
      exact Bool.false_ne_true hcontra.2
    calc replaceAll pat repl ((c :: x) ++ z)
        = replaceAll pat repl (c :: (x ++ z)) := by rw [List.cons_append]
      _ = c :: replaceAll pat repl (x ++ z) := by rw [replaceAll_cons, if_neg hni]
      _ = c :: (x ++ replaceAll pat repl z) := by
          rw [ih fun d hd => hx d (by simp [hd])]
      _ = (c :: x) ++ replaceAll pat repl z := by rw [List.cons_append]

theorem good_replaceAll {pat repl : List Char} {h0 : Char} {pt : List Char}
    (hp : pat = h0 :: pt) (htags : ∀ t ∈ TAGS, ∀ c ∈ t, c ≠ h0)
    (hrepl : Good repl) :
    ∀ (n : Nat) (s : List Char), s.length ≤ n → Good s →
      Good (replaceAll pat repl s) := by
  intro n
  induction n with
  | zero =>
    intro s hs _
    have hnil : s = [] := List.length_eq_zero.mp (Nat.le_zero.mp hs)
    subst hnil
    rw [replaceAll_nil]
    exact good_nil
  | succ n ih =>
    intro s hs hgood
    cases s with
    | nil =>
      rw [replaceAll_nil]
      exact good_nil
    | cons c rest =>
      have hlen : rest.length ≤ n := by
        simp only [List.length_cons] at hs
        omega
      have hrest : Good rest := good_suffix (x := [c]) hgood
      rw [replaceAll_cons]
      by_cases hm : pat ≠ [] ∧ startsWith pat (c :: rest) = true
      · rw [if_pos hm]
        refine good_append hrepl (ih _ ?_ ?_)
        · calc (rest.drop (pat.length - 1)).length
              = rest.length - (pat.length - 1) := List.length_drop _ _
            _ ≤ rest.length := Nat.sub_le _ _
            _ ≤ n := hlen
        · have h2 : rest = rest.take (pat.length - 1) ++ rest.drop (pat.length - 1) :=
            (List.take_append_drop _ _).symm
          exact good_suffix (x := rest.take (pat.length - 1)) (h2 ▸ hrest)
      · rw [if_neg hm]
        by_cases hc : c = '<'
        · subst hc
          rcases hgood [] rest rfl with ⟨t, ht, hstw⟩
          rcases tag_destruct ht with ⟨t', rfl, _⟩
          simp only [startsWith, beq_self_eq_true, Bool.true_and] at hstw
          rcases startsWith_iff.mp hstw with ⟨z, hz⟩
          refine good_cons_lt ⟨'<' :: t', ht, ?_⟩ (ih rest hlen hrest)
          have hcopy : replaceAll pat repl rest = t' ++ replaceAll pat repl z := by
            rw [← hz]
            exact replaceAll_copy hp repl z
              fun d hd => htags _ ht d (by simp [hd])
          rw [hcopy]
          simp only [startsWith, beq_self_eq_true, Bool.true_and]
          exact startsWith_append_self t' _
        · exact good_cons hc (ih rest hlen hrest)

theorem good_inlineCodeSpan (inner : List Char) :
    Good (inlineCodeSpan (htmlEscape inner)) := by
  unfold inlineCodeSpan
  refine good_append (good_append (goodB_good (by decide)) (good_htmlEscape inner))
    (goodB_good (by decide))

theorem htmlEscape_placeholder_head (i : Nat) :
    htmlEscape (placeholder i) =
      nul :: htmlEscape ("CODE".data ++ natDigits i ++ [nul]) := by
  have h1 : placeholder i = nul :: ("CODE".data ++ natDigits i ++ [nul]) := by
    simp [placeholder]
  rw [h1, htmlEscape_cons]
  have h2 : htmlEscapeChar nul = [nul] := by decide
  rw [h2]
  rfl

theorem good_restoreAux (cs : List (List Char)) :
    ∀ (i : Nat) (s : List Char), Good s → Good (restoreAux i cs s) := by
  induction cs with
  | nil =>
    intro i s h
    exact h
  | cons code cs ih =>
    intro i s h
    simp only [restoreAux]
    apply ih
    exact good_replaceAll (htmlEscape_placeholder_head i) (by decide)
      (good_inlineCodeSpan code) s.length s le_rfl h

theorem good_processInlineFormatting (line : List Char) :
    Good (processInlineFormatting line) := by
  unfold processInlineFormatting
  apply good_restoreAux
  exact good_subItalic (good_subBold
    fun c hc => (htmlEscape_no_angle _ c hc).1)

/-! Good-ness of the per-line fragments and of the whole document body. -/

theorem good_divOpen_apnd {style inner : List Char} (hst : goodB (divOpen style) = true)
    (hinner : Good inner) : Good (divOpen style ++ inner ++ "</div>".data) :=
  good_append (good_append (goodB_good hst) hinner) (goodB_good (by decide))

theorem good_codeBlockDiv (ls : List (List Char)) : Good (codeBlockDiv ls) := by
  unfold codeBlockDiv
  exact good_divOpen_apnd (by decide) (good_htmlEscape _)

theorem good_lineFragment (line : List Char) : Good (lineFragment line) := by
  unfold lineFragment
  split_ifs
  · exact goodB_good (by decide)
  · exact good_append (good_append (goodB_good (by decide)) (good_htmlEscape _))
      (goodB_good (by decide))
  · exact good_append (good_append (goodB_good (by decide)) (good_htmlEscape _))
      (goodB_good (by decide))
  · exact good_append (good_append (goodB_good (by decide)) (good_htmlEscape _))
      (goodB_good (by decide))
  · exact good_divOpen_apnd (by decide) (good_htmlEscape _)
  · exact good_divOpen_apnd (by decide) (good_htmlEscape _)
  · exact good_append (good_append (goodB_good (by decide)) (good_htmlEscape _))
      (goodB_good (by decide))
  · exact good_append (good_append (goodB_good (by decide)) (good_htmlEscape _))
      (goodB_good (by decide))
  · exact good_append (good_append (goodB_good (by decide))
      (good_processInlineFormatting _)) (goodB_good (by decide))

theorem good_chatLoop (lines : List (List Char)) :
    ∀ (b : Bool) (accum : List (List Char)), Good (chatLoop lines b accum) := by
  induction lines with
  | nil =>
    intro b accum
    simp only [chatLoop]
    split
    · exact good_codeBlockDiv accum
    · exact good_nil
  | cons line rest ih =>
    intro b accum
    simp only [chatLoop]
    split_ifs
    · exact good_append (good_codeBlockDiv accum) (ih false [])
    · exact ih true accum
    · exact ih true (accum ++ [line])
    · exact good_append (good_lineFragment line) (ih false accum)

/-! Occurrence counting for the envelope tags. -/

/-- The declaration-plus-doctype part of the header, before `<en-note>`. -/
def enmlHead0 : List Char :=
  "<?xml version=\"1.0\" encoding=\"UTF-8\"?>".data ++
  "<!DOCTYPE en-note SYSTEM \"http://xml.evernote.com/pub/enml2.dtd\">".data

theorem enmlHeader_split : enmlHeader = enmlHead0 ++ "<en-note>".data := by
  simp [enmlHeader, enmlHead0]

theorem countOcc_cons_shield {a : Char} {q y : List Char} (X : List Char)
    (hy : ∀ c ∈ y, c ≠ a) :
    countOcc (a :: q) ((a :: y) ++ X) =
      (if startsWith (a :: q) (a :: (y ++ X)) then 1 else 0) +
        countOcc (a :: q) X := by
  rw [show (a :: y) ++ X = a :: (y ++ X) from rfl, countOcc_cons]
  congr 1
  exact shields_all_ne rfl hy X

theorem countOcc_enopen (X : List Char) :
    countOcc "<en-note>".data ("<en-note>".data ++ X) =
      1 + countOcc "<en-note>".data X := by
  have h := countOcc_cons_shield (a := '<') (q := "en-note>".data)
    (y := "en-note>".data) X (by decide)
  rw [show ("<en-note>".data : List Char) = '<' :: "en-note>".data from rfl, h]
  have hsw : startsWith ('<' :: "en-note>".data) ('<' :: ("en-note>".data ++ X)) = true :=
    startsWith_append_self ('<' :: "en-note>".data) X
  rw [hsw]
  simp

theorem countOcc_enclose_open (X : List Char) :
    countOcc "</en-note>".data ("<en-note>".data ++ X) =
      countOcc "</en-note>".data X := by
  have h := countOcc_cons_shield (a := '<') (q := "/en-note>".data)
    (y := "en-note>".data) X (by decide)
  rw [show ("<en-note>".data : List Char) = '<' :: "en-note>".data from rfl,
    show ("</en-note>".data : List Char) = '<' :: "/en-note>".data from rfl, h]
  have hsw : startsWith ('<' :: "/en-note>".data) (('<' :: "en-note>".data) ++ X) = false :=
    not_startsWith_of_mismatch X (by decide)
  rw [show '<' :: ("en-note>".data ++ X) = ('<' :: "en-note>".data) ++ X from rfl, hsw]
  simp

theorem shields_head0_open : Shields "<en-note>".data enmlHead0 :=
  good_shields (q := "en-note>".data) rfl (by decide) (goodB_good (by decide))

theorem shields_head0_close : Shields "</en-note>".data enmlHead0 :=
  good_shields (q := "/en-note>".data) rfl (by decide) (goodB_good (by decide))

theorem chatToEnml_assoc (content : List Char) :
    chatToEnml content =
      enmlHead0 ++ ("<en-note>".data ++
        (chatLoop (splitLines content) false [] ++ "</en-note>".data)) := by
  rw [chatToEnml, enmlHeader_split]
  simp [List.append_assoc]

/-- C2: for every input string, the produced document starts with the
fixed XML declaration, doctype and root open tag, ends with the root
close tag, and the root open and close tags each occur exactly once in
the whole document (no fragment introduces another `en-note` tag). -/
theorem claim_C2_envelope (content : List Char) :
    (∃ rest, chatToEnml content = enmlHeader ++ rest) ∧
    (∃ pre, chatToEnml content = pre ++ "</en-note>".data) ∧
    countOcc "<en-note>".data (chatToEnml content) = 1 ∧
    countOcc "</en-note>".data (chatToEnml content) = 1 := by
  refine ⟨⟨chatLoop (splitLines content) false [] ++ "</en-note>".data, by
      rw [chatToEnml]; simp [List.append_assoc]⟩,
    ⟨enmlHeader ++ chatLoop (splitLines content) false [], by
      rw [chatToEnml]⟩, ?_, ?_⟩
  · rw [chatToEnml_assoc, shields_head0_open, countOcc_enopen,
      good_shields (q := "en-note>".data) rfl (by decide)
        (good_chatLoop (splitLines content) false [])]
    decide
  · rw [chatToEnml_assoc, shields_head0_close, countOcc_enclose_open,
      good_shields (q := "/en-note>".data) rfl (by decide)
        (good_chatLoop (splitLines content) false [])]
    decide

/-- C3: the conversion is a total function with no reject path of its
own: it is defined on every input string and always returns a document
wrapped in the fixed envelope; in particular the empty string and a
whitespace-only string yield a minimal document with a single
line-break fragment, while the caller-side guard of `save_chat` is
what rejects those inputs. -/
theorem claim_C3_total :
    (∀ content : List Char, ∃ body,
      chatToEnml content = enmlHeader ++ body ++ "</en-note>".data) ∧
    chatToEnml [] = enmlHeader ++ "<br/>".data ++ "</en-note>".data ∧
    chatToEnml "   ".data = enmlHeader ++ "<br/>".data ++ "</en-note>".data ∧
    saveChatRejects [] = true ∧ saveChatRejects "   ".data = true := by
  refine ⟨fun content => ⟨chatLoop (splitLines content) false [], rfl⟩,
    by decide, by decide, by decide, by decide⟩

/-! Evaluation of the inline formatter on a single code span. -/

theorem extract_single (s : List Char) :
    ∀ (buf : List Char) (i : Nat), (∀ c ∈ s, c ≠ bq) →
      buf.reverse ++ s ≠ [] →
      extractAux i (s ++ [bq]) (some buf) = (placeholder i, [buf.reverse ++ s]) := by
  induction s with
  | nil =>
    intro buf i _ hne
    simp only [List.append_nil] at hne
    have hbuf : ¬ buf.isEmpty := by
      simpa [List.isEmpty_iff] using fun h => hne (by simp [h])
    simp only [List.nil_append, extractAux, if_pos rfl, if_neg hbuf]
    simp
  | cons c s ih =>
    intro buf i hbq hne
    have hc : c ≠ bq := hbq c (by simp)
    simp only [List.cons_append, extractAux, if_neg hc, List.append_eq]
    have := ih (c :: buf) i (fun d hd => hbq d (by simp [hd])) (by simp)
    rw [this]
    simp

theorem startsWith_self (p : List Char) : startsWith p p = true :=
  startsWith_iff.mpr ⟨[], List.append_nil p⟩

theorem replaceAll_self {pat : List Char} (repl : List Char) {c : Char}
    {rest : List Char} (hp : pat = c :: rest) :
    replaceAll pat repl pat = repl := by
  subst hp
  rw [replaceAll_cons, if_pos ⟨by simp, startsWith_self _⟩]
  simp only [List.length_cons, Nat.add_sub_cancel, List.drop_length,
    replaceAll_nil, List.append_nil]

/-- Shared evaluation lemma: a line that is exactly one backtick-wrapped
inline-code span (non-empty, backtick-free content) is formatted as the
styled span wrapping the once-escaped content. -/
theorem inline_code_single {s : List Char} (hne : s ≠ [])
    (hbq : ∀ c ∈ s, c ≠ bq) :
    processInlineFormatting (bq :: (s ++ [bq])) = inlineCodeSpan (htmlEscape s) := by
  have hext : extractAux 0 (bq :: (s ++ [bq])) none = (placeholder 0, [s]) := by
    simp only [extractAux, if_pos rfl]
    simpa using extract_single s [] 0 hbq (by simpa using hne)
  unfold processInlineFormatting
  rw [hext]
  have h1 : htmlEscape (placeholder 0) = placeholder 0 := by decide
  have h2 : subBold (placeholder 0) = placeholder 0 := by decide
  have h3 : subItalic (placeholder 0) = placeholder 0 := by decide
  show restoreAux 0 [s] (subItalic (subBold (htmlEscape (placeholder 0)))) = _
  rw [h1, h2, h3]
  show restoreAux 1 []
    (replaceAll (htmlEscape (placeholder 0)) (inlineCodeSpan (htmlEscape s))
      (placeholder 0)) = _
  rw [h1, replaceAll_self _ (show placeholder 0 = nul :: ("CODE0".data ++ [nul]) by decide)]
  rfl

theorem countOcc_em_inlineCodeSpan (s : List Char) :
    countOcc "<em>".data (inlineCodeSpan (htmlEscape s)) = 0 := by
  unfold inlineCodeSpan
  have h1 : Shields "<em>".data "<span style=".data := shieldsB_shields (by decide)
  have h2 : Shields "<em>".data [qm] := shieldsB_shields (by decide)
  have h3 : Shields "<em>".data styleInlineCode := shieldsB_shields (by decide)
  have h4 : Shields "<em>".data [qm, '>'] := shieldsB_shields (by decide)
  have h5 : Shields "<em>".data (htmlEscape s) :=
    shields_all_ne rfl fun c hc => (htmlEscape_no_angle s c hc).1
  rw [shields_append (shields_append (shields_append (shields_append h1 h2) h3) h4) h5]
  decide

theorem countOcc_strong_inlineCodeSpan (s : List Char) :
    countOcc "<strong>".data (inlineCodeSpan (htmlEscape s)) = 0 := by
  unfold inlineCodeSpan
  have h1 : Shields "<strong>".data "<span style=".data := shieldsB_shields (by decide)
  have h2 : Shields "<strong>".data [qm] := shieldsB_shields (by decide)
  have h3 : Shields "<strong>".data styleInlineCode := shieldsB_shields (by decide)
  have h4 : Shields "<strong>".data [qm, '>'] := shieldsB_shields (by decide)
  have h5 : Shields "<strong>".data (htmlEscape s) :=
    shields_all_ne rfl fun c hc => (htmlEscape_no_angle s c hc).1
  rw [shields_append (shields_append (shields_append (shields_append h1 h2) h3) h4) h5]
  decide

/-! Branch evaluation of `lineFragment` for headings, speaker markers
and bullet items. -/

theorem dropWhile_keep_last {p : Char → Bool} {d : Char} (hd : p d = false) :
    ∀ x : List Char, ∃ w, (x ++ [d]).dropWhile p = w ++ [d] := by
  intro x
  induction x with
  | nil => exact ⟨[], by simp [List.dropWhile_cons, hd]⟩
  | cons a x ih =>
    by_cases ha : p a = true
    · rcases ih with ⟨w, hw⟩
      exact ⟨w, by simp [List.dropWhile_cons, ha, hw]⟩
    · exact ⟨a :: x, by simp [List.dropWhile_cons, ha]⟩

theorem strip_head {d : Char} (l : List Char) (hd : pyIsSpace d = false) :
    ∃ w, strip (d :: l) = d :: w := by
  unfold strip
  rw [List.dropWhile_cons, if_neg (by simp [hd]), List.reverse_cons]
  rcases dropWhile_keep_last hd l.reverse with ⟨w, hw⟩
  exact ⟨w.reverse, by rw [hw]; simp⟩

theorem strip_cons_not_empty {d : Char} {l : List Char} (hd : pyIsSpace d = false) :
    ¬ ((strip (d :: l)).isEmpty = true) := by
  rcases strip_head l hd with ⟨w, hw⟩
  simp [hw]

theorem not_startsWith_strip {d c : Char} {p l w : List Char}
    (hs : strip l = c :: w) (hd : pyIsSpace d = false) (hne : d ≠ c) :
    startsWith (d :: p) l = false := by
  cases l with
  | nil => rfl
  | cons b l' =>
    by_cases hb : d = b
    · subst hb
      rcases strip_head l' hd with ⟨w', hw'⟩
      rw [hw'] at hs
      injection hs with h1 _
      exact absurd h1 hne
    · simp [startsWith, hb]

theorem heading_fragment_h3 (r : List Char) :
    lineFragment ("### ".data ++ r) = "<h3>".data ++ htmlEscape r ++ "</h3>".data := by
  have hblank : ¬ ((strip ("### ".data ++ r)).isEmpty = true) :=
    strip_cons_not_empty (d := '#') (by decide)
  unfold lineFragment
  rw [if_neg hblank, if_pos (startsWith_append_self "### ".data r),
    show (4 : Nat) = ("### ".data).length from rfl, List.drop_left]

theorem heading_fragment_h2 (r : List Char) :
    lineFragment ("## ".data ++ r) = "<h2>".data ++ htmlEscape r ++ "</h2>".data := by
  have hblank : ¬ ((strip ("## ".data ++ r)).isEmpty = true) :=
    strip_cons_not_empty (d := '#') (by decide)
  have h3 : startsWith "### ".data ("## ".data ++ r) = false :=
    not_startsWith_of_mismatch (p := "### ".data) (x := "## ".data) r (by decide)
  unfold lineFragment
  rw [if_neg hblank, if_neg (by rw [h3]; simp),
    if_pos (startsWith_append_self "## ".data r),
    show (3 : Nat) = ("## ".data).length from rfl, List.drop_left]

theorem heading_fragment_h1 (r : List Char) :
    lineFragment ("# ".data ++ r) = "<h1>".data ++ htmlEscape r ++ "</h1>".data := by
  have hblank : ¬ ((strip ("# ".data ++ r)).isEmpty = true) :=
    strip_cons_not_empty (d := '#') (by decide)
  have h3 : startsWith "### ".data ("# ".data ++ r) = false :=
    not_startsWith_of_mismatch (p := "### ".data) (x := "# ".data) r (by decide)
  have h2 : startsWith "## ".data ("# ".data ++ r) = false :=
    not_startsWith_of_mismatch (p := "## ".data) (x := "# ".data) r (by decide)
  unfold lineFragment
  rw [if_neg hblank, if_neg (by rw [h3]; simp), if_neg (by rw [h2]; simp),
    if_pos (startsWith_append_self "# ".data r),
    show (2 : Nat) = ("# ".data).length from rfl, List.drop_left]

theorem speaker_fragment_human (r : List Char) :
    lineFragment ("Human:".data ++ r) =
      divOpen styleHuman ++ htmlEscape ("Human:".data ++ r) ++ "</div>".data := by
  have hblank : ¬ ((strip ("Human:".data ++ r)).isEmpty = true) :=
    strip_cons_not_empty (d := 'H') (by decide)
  have h3 : startsWith "### ".data ("Human:".data ++ r) = false :=
    not_startsWith_of_mismatch (p := "### ".data) (x := "Human:".data) r (by decide)
  have h2 : startsWith "## ".data ("Human:".data ++ r) = false :=
    not_startsWith_of_mismatch (p := "## ".data) (x := "Human:".data) r (by decide)
  have h1 : startsWith "# ".data ("Human:".data ++ r) = false :=
    not_startsWith_of_mismatch (p := "# ".data) (x := "Human:".data) r (by decide)
  unfold lineFragment
  rw [if_neg hblank, if_neg (by rw [h3]; simp), if_neg (by rw [h2]; simp),
    if_neg (by rw [h1]; simp),
    if_pos (by rw [startsWith_append_self "Human:".data r]; simp)]

theorem speaker_fragment_user (r : List Char) :
    lineFragment ("User:".data ++ r) =
      divOpen styleHuman ++ htmlEscape ("User:".data ++ r) ++ "</div>".data := by
  have hblank : ¬ ((strip ("User:".data ++ r)).isEmpty = true) :=
    strip_cons_not_empty (d := 'U') (by decide)
  have h3 : startsWith "### ".data ("User:".data ++ r) = false :=
    not_startsWith_of_mismatch (p := "### ".data) (x := "User:".data) r (by decide)
  have h2 : startsWith "## ".data ("User:".data ++ r) = false :=
    not_startsWith_of_mismatch (p := "## ".data) (x := "User:".data) r (by decide)
  have h1 : startsWith "# ".data ("User:".data ++ r) = false :=
    not_startsWith_of_mismatch (p := "# ".data) (x := "User:".data) r (by decide)
  have hh : startsWith "Human:".data ("User:".data ++ r) = false :=
    not_startsWith_of_mismatch (p := "Human:".data) (x := "User:".data) r (by decide)
  unfold lineFragment
  rw [if_neg hblank, if_neg (by rw [h3]; simp), if_neg (by rw [h2]; simp),
    if_neg (by rw [h1]; simp),
    if_pos (by rw [hh, startsWith_append_self "User:".data r]; simp)]

theorem speaker_fragment_assistant (r : List Char) :
    lineFragment ("Assistant:".data ++ r) =
      divOpen styleAssistant ++ htmlEscape ("Assistant:".data ++ r) ++ "</div>".data := by
  have hblank : ¬ ((strip ("Assistant:".data ++ r)).isEmpty = true) :=
    strip_cons_not_empty (d := 'A') (by decide)
  have h3 : startsWith "### ".data ("Assistant:".data ++ r) = false :=
    not_startsWith_of_mismatch (p := "### ".data) (x := "Assistant:".data) r (by decide)
  have h2 : startsWith "## ".data ("Assistant:".data ++ r) = false :=
    not_startsWith_of_mismatch (p := "## ".data) (x := "Assistant:".data) r (by decide)
  have h1 : startsWith "# ".data ("Assistant:".data ++ r) = false :=
    not_startsWith_of_mismatch (p := "# ".data) (x := "Assistant:".data) r (by decide)
  have hh : startsWith "Human:".data ("Assistant:".data ++ r) = false :=
    not_startsWith_of_mismatch (p := "Human:".data) (x := "Assistant:".data) r (by decide)
  have hu : startsWith "User:".data ("Assistant:".data ++ r) = false :=
    not_startsWith_of_mismatch (p := "User:".data) (x := "Assistant:".data) r (by decide)
  unfold lineFragment
  rw [if_neg hblank, if_neg (by rw [h3]; simp), if_neg (by rw [h2]; simp),
    if_neg (by rw [h1]; simp), if_neg (by rw [hh, hu]; simp),
    if_pos (by rw [startsWith_append_self "Assistant:".data r]; simp)]

theorem speaker_fragment_claude (r : List Char) :
    lineFragment ("Claude:".data ++ r) =
      divOpen styleAssistant ++ htmlEscape ("Claude:".data ++ r) ++ "</div>".data := by
  have hblank : ¬ ((strip ("Claude:".data ++ r)).isEmpty = true) :=
    strip_cons_not_empty (d := 'C') (by decide)
  have h3 : startsWith "### ".data ("Claude:".data ++ r) = false :=
    not_startsWith_of_mismatch (p := "### ".data) (x := "Claude:".data) r (by decide)
  have h2 : startsWith "## ".data ("Claude:".data ++ r) = false :=
    not_startsWith_of_mismatch (p := "## ".data) (x := "Claude:".data) r (by decide)
  have h1 : startsWith "# ".data ("Claude:".data ++ r) = false :=
    not_startsWith_of_mismatch (p := "# ".data) (x := "Claude:".data) r (by decide)
  have hh : startsWith "Human:".data ("Claude:".data ++ r) = false :=
    not_startsWith_of_mismatch (p := "Human:".data) (x := "Claude:".data) r (by decide)
  have hu : startsWith "User:".data ("Claude:".data ++ r) = false :=
    not_startsWith_of_mismatch (p := "User:".data) (x := "Claude:".data) r (by decide)
  have ha : startsWith "Assistant:".data ("Claude:".data ++ r) = false :=
    not_startsWith_of_mismatch (p := "Assistant:".data) (x := "Claude:".data) r (by decide)
  unfold lineFragment
  rw [if_neg hblank, if_neg (by rw [h3]; simp), if_neg (by rw [h2]; simp),
    if_neg (by rw [h1]; simp), if_neg (by rw [hh, hu]; simp),
    if_pos (by rw [ha, startsWith_append_self "Claude:".data r]; simp)]

theorem bullet_fragment_dash {l rest : List Char}
    (hs : strip l = '-' :: ' ' :: rest) :
    lineFragment l = "<div>- ".data ++ htmlEscape rest ++ "</div>".data := by
  have hblank : ¬ ((strip l).isEmpty = true) := by rw [hs]; simp
  have h3 : startsWith "### ".data l = false :=
    not_startsWith_strip hs (by decide) (by decide)
  have h2 : startsWith "## ".data l = false :=
    not_startsWith_strip hs (by decide) (by decide)
  have h1 : startsWith "# ".data l = false :=
    not_startsWith_strip hs (by decide) (by decide)
  have hh : startsWith "Human:".data l = false :=
    not_startsWith_strip hs (by decide) (by decide)
  have hu : startsWith "User:".data l = false :=
    not_startsWith_strip hs (by decide) (by decide)
  have ha : startsWith "Assistant:".data l = false :=
    not_startsWith_strip hs (by decide) (by decide)
  have hc : startsWith "Claude:".data l = false :=
    not_startsWith_strip hs (by decide) (by decide)
  have hbul : startsWith "- ".data (strip l) = true := by
    rw [hs]
    exact startsWith_append_self "- ".data rest
  unfold lineFragment
  rw [if_neg hblank, if_neg (by rw [h3]; simp), if_neg (by rw [h2]; simp),
    if_neg (by rw [h1]; simp), if_neg (by rw [hh, hu]; simp),
    if_neg (by rw [ha, hc]; simp), if_pos (by rw [hbul]; simp), hs]
  rfl

theorem bullet_fragment_star {l rest : List Char}
    (hs : strip l = '*' :: ' ' :: rest) :
    lineFragment l = "<div>- ".data ++ htmlEscape rest ++ "</div>".data := by
  have hblank : ¬ ((strip l).isEmpty = true) := by rw [hs]; simp
  have h3 : startsWith "### ".data l = false :=
    not_startsWith_strip hs (by decide) (by decide)
  have h2 : startsWith "## ".data l = false :=
    not_startsWith_strip hs (by decide) (by decide)
  have h1 : startsWith "# ".data l = false :=
    not_startsWith_strip hs (by decide) (by decide)
  have hh : startsWith "Human:".data l = false :=
    not_startsWith_strip hs (by decide) (by decide)
  have hu : startsWith "User:".data l = false :=
    not_startsWith_strip hs (by decide) (by decide)
  have ha : startsWith "Assistant:".data l = false :=
    not_startsWith_strip hs (by decide) (by decide)
  have hc : startsWith "Claude:".data l = false :=
    not_startsWith_strip hs (by decide) (by decide)
  have hb1 : startsWith "- ".data (strip l) = false := by
    rw [hs]
    exact not_startsWith_of_mismatch (p := "- ".data) (x := ['*'])
      (' ' :: rest) (by decide)
  have hb2 : startsWith "* ".data (strip l) = true := by
    rw [hs]
    exact startsWith_append_self "* ".data rest
  unfold lineFragment
  rw [if_neg hblank, if_neg (by rw [h3]; simp), if_neg (by rw [h2]; simp),
    if_neg (by rw [h1]; simp), if_neg (by rw [hh, hu]; simp),
    if_neg (by rw [ha, hc]; simp), if_pos (by rw [hb1, hb2]; simp), hs]
  rfl

/-- C6: the bold substitution runs before the italic one: the line
with a double-asterisk bold span and a single-asterisk italic span is
converted to exactly one strong span and exactly one emphasis span, and
the double-asterisk pair is never mis-split into two italic spans. -/
theorem claim_C6_bold_then_italic :
    processInlineFormatting "**bold** and *italic*".data =
      "<strong>bold</strong> and <em>italic</em>".data ∧
    countOcc "<strong>bold</strong>".data
      (processInlineFormatting "**bold** and *italic*".data) = 1 ∧
    countOcc "<em>italic</em>".data
      (processInlineFormatting "**bold** and *italic*".data) = 1 ∧
    countOcc "<strong>".data
      (processInlineFormatting "**bold** and *italic*".data) = 1 ∧
    countOcc "<em>".data
      (processInlineFormatting "**bold** and *italic*".data) = 1 :=
  ⟨by decide, by decide, by decide, by decide, by decide⟩

/-- C7: heading classification is longest-prefix-first: a line starting
with three hashes and a space becomes a level-3 heading wrapping the
escaped remainder, two hashes level 2, one hash level 1, with no
cross-leakage (a `### `-line produces no `<h1>` or `<h2>` fragment). -/
theorem claim_C7_headings :
    (∀ r : List Char, lineFragment ("### ".data ++ r) =
        "<h3>".data ++ htmlEscape r ++ "</h3>".data) ∧
    (∀ r : List Char, lineFragment ("## ".data ++ r) =
        "<h2>".data ++ htmlEscape r ++ "</h2>".data) ∧
    (∀ r : List Char, lineFragment ("# ".data ++ r) =
        "<h1>".data ++ htmlEscape r ++ "</h1>".data) ∧
    chatToEnml "# Title".data =
      enmlHeader ++ "<h1>Title</h1>".data ++ "</en-note>".data ∧
    chatToEnml "## Title".data =
      enmlHeader ++ "<h2>Title</h2>".data ++ "</en-note>".data ∧
    chatToEnml "### Title".data =
      enmlHeader ++ "<h3>Title</h3>".data ++ "</en-note>".data ∧
    countOcc "<h1>".data (chatToEnml "### X".data) = 0 ∧
    countOcc "<h2>".data (chatToEnml "### X".data) = 0 :=
  ⟨heading_fragment_h3, heading_fragment_h2, heading_fragment_h1,
   by decide, by decide, by decide, by decide, by decide⟩

/-- C8 counterexample: the input consisting of exactly one newline
character yields two line-break fragments, not one, because splitting
on the newline produces two empty lines. -/
theorem claim_C8_counterexample :
    countOcc "<br/>".data (chatToEnml ['\n']) = 2 := by decide

/-- C8 as amended: the single-newline input yields exactly two
line-break fragments (one per empty line of the split) and no
paragraph container; the empty input yields exactly one. -/
theorem claim_C8_single_newline_two_breaks :
    chatToEnml ['\n'] =
      enmlHeader ++ "<br/><br/>".data ++ "</en-note>".data ∧
    countOcc "<br/>".data (chatToEnml ['\n']) = 2 ∧
    countOcc "<div".data (chatToEnml ['\n']) = 0 ∧
    countOcc "<br/>".data (chatToEnml []) = 1 :=
  ⟨by decide, by decide, by decide, by decide⟩

/-- C9 counterexample: a speaker-marker line is emitted as the
HTML-escaped full line inside the styled block; the inline formatter is
not applied, so a bold span inside a speaker line is left as literal
asterisks and no strong markup appears. -/
theorem claim_C9_counterexample :
    chatToEnml "Human: **hi**".data =
      enmlHeader ++ divOpen styleHuman ++ "Human: **hi**".data ++
        "</div>".data ++ "</en-note>".data ∧
    countOcc "<strong>".data (chatToEnml "Human: **hi**".data) = 0 ∧
    countOcc "<span".data (chatToEnml "Human: `x`".data) = 0 :=
  ⟨by decide, by decide, by decide⟩

/-- C9 as amended: for every speaker-marker line (Human:, User:,
Assistant:, Claude:), the emitted fragment is the styled block wrapping
the plain HTML-escaped full line — the inline formatter is not invoked
on speaker lines. -/
theorem claim_C9_speaker_escaped_only :
    (∀ r : List Char, lineFragment ("Human:".data ++ r) =
        divOpen styleHuman ++ htmlEscape ("Human:".data ++ r) ++ "</div>".data) ∧
    (∀ r : List Char, lineFragment ("User:".data ++ r) =
        divOpen styleHuman ++ htmlEscape ("User:".data ++ r) ++ "</div>".data) ∧
    (∀ r : List Char, lineFragment ("Assistant:".data ++ r) =
        divOpen styleAssistant ++ htmlEscape ("Assistant:".data ++ r) ++ "</div>".data) ∧
    (∀ r : List Char, lineFragment ("Claude:".data ++ r) =
        divOpen styleAssistant ++ htmlEscape ("Claude:".data ++ r) ++ "</div>".data) :=
  ⟨speaker_fragment_human, speaker_fragment_user,
   speaker_fragment_assistant, speaker_fragment_claude⟩

/-- C10: bullet-marker normalization: two lines whose stripped forms
differ only in the leading marker (`- ` versus `* `) produce the same
fragment, and the rendered glyph is always `- `. -/
theorem claim_C10_bullet_marker (l1 l2 rest : List Char)
    (h1 : strip l1 = '-' :: ' ' :: rest) (h2 : strip l2 = '*' :: ' ' :: rest) :
    lineFragment l1 = lineFragment l2 ∧
    lineFragment l1 = "<div>- ".data ++ htmlEscape rest ++ "</div>".data :=
  ⟨(bullet_fragment_dash h1).trans (bullet_fragment_star h2).symm,
   bullet_fragment_dash h1⟩

/-- Witness for C10 at a concrete pair of lines differing only in the
bullet marker. -/
theorem claim_C10_witness :
    lineFragment "- a".data = lineFragment "* a".data ∧
    lineFragment "- a".data =
      "<div>- ".data ++ htmlEscape "a".data ++ "</div>".data :=
  claim_C10_bullet_marker "- a".data "* a".data "a".data (by decide) (by decide)

/-! Lines joined by newlines split back into the same lines. -/

theorem intercalate_single (l : List Char) : List.intercalate ['\n'] [l] = l := by
  simp [List.intercalate]

theorem intercalate_cons_cons (a b : List Char) (t : List (List Char)) :
    List.intercalate ['\n'] (a :: b :: t) =
      a ++ '\n' :: List.intercalate ['\n'] (b :: t) := by
  simp [List.intercalate, List.intersperse]

theorem splitLines_ne_nil (l : List Char) : splitLines l ≠ [] := by
  cases l with
  | nil => simp [splitLines]
  | cons c rest =>
    simp only [splitLines]
    cases h : splitLines rest with
    | nil => simp
    | cons a as => by_cases hc : c = '\n' <;> simp [hc]

theorem splitLines_no_nl {l : List Char} (h : '\n' ∉ l) : splitLines l = [l] := by
  induction l with
  | nil => rfl
  | cons c rest ih =>
    have hc : c ≠ '\n' := fun hc => h (by simp [hc])
    have hr := ih fun hm => h (by simp [hm])
    simp only [splitLines, hr, if_neg hc]

theorem splitLines_append_nl {x : List Char} (R : List Char) (hx : '\n' ∉ x) :
    splitLines (x ++ '\n' :: R) = x :: splitLines R := by
  induction x with
  | nil =>
    simp only [List.nil_append, splitLines]
    cases h : splitLines R with
    | nil => exact absurd h (splitLines_ne_nil R)
    | cons a as => simp
  | cons c x ih =>
    have hc : c ≠ '\n' := fun h => hx (by simp [h])
    have ih' := ih fun h => hx (by simp [h])
    simp only [List.cons_append, splitLines, List.append_eq, ih', if_neg hc]

theorem splitLines_intercalate (ls : List (List Char)) :
    ls ≠ [] → (∀ l ∈ ls, '\n' ∉ l) →
      splitLines (List.intercalate ['\n'] ls) = ls := by
  induction ls with
  | nil => intro h; exact absurd rfl h
  | cons a t ih =>
    intro _ hnl
    cases t with
    | nil =>
      rw [intercalate_single]
      exact splitLines_no_nl (hnl a (by simp))
    | cons b t' =>
      rw [intercalate_cons_cons, splitLines_append_nl _ (hnl a (by simp)),
        ih (by simp) fun l hl => hnl l (by simp [hl])]

theorem chatLoop_in_code (ls : List (List Char)) :
    ∀ accum, (∀ l ∈ ls, startsWith "```".data l = false) → accum ++ ls ≠ [] →
      chatLoop ls true accum = codeBlockDiv (accum ++ ls) := by
  induction ls with
  | nil =>
    intro accum _ hne
    simp only [List.append_nil] at hne ⊢
    simp only [chatLoop]
    rw [if_pos (by simp [List.isEmpty_iff, hne])]
  | cons l t ih =>
    intro accum hf _
    simp only [chatLoop]
    rw [if_neg (by rw [hf l (by simp)]; simp), if_pos trivial,
      ih (accum ++ [l]) (fun x hx => hf x (by simp [hx])) (by simp),
      List.append_assoc, List.singleton_append]

/-- C5: an opened but never closed fenced code block still flushes the
collected lines at end of input into a single styled monospace
container with escaped, newline-joined content — nothing is lost. -/
theorem claim_C5_unterminated_fence (ls : List (List Char)) (hne : ls ≠ [])
    (hnl : ∀ l ∈ ls, '\n' ∉ l)
    (hfence : ∀ l ∈ ls, startsWith "```".data l = false) :
    chatToEnml (List.intercalate ['\n'] ("```".data :: ls)) =
      enmlHeader ++ codeBlockDiv ls ++ "</en-note>".data := by
  rw [chatToEnml, splitLines_intercalate _ (by simp) ?hall]
  case hall =>
    intro l hl
    rcases List.mem_cons.mp hl with rfl | hl
    · decide
    · exact hnl l hl
  simp only [chatLoop]
  rw [if_pos (by decide), if_neg (by simp),
    chatLoop_in_code ls [] hfence (by simpa using hne), List.nil_append]

/-- Witness for C5: a two-line input whose fence is never closed. -/
theorem claim_C5_witness :
    chatToEnml "```\nx*y <z".data =
      enmlHeader ++ codeBlockDiv ["x*y <z".data] ++ "</en-note>".data := by
  have heq : "```\nx*y <z".data =
      List.intercalate ['\n'] ("```".data :: ["x*y <z".data]) := by decide
  rw [heq]
  exact claim_C5_unterminated_fence ["x*y <z".data] (by simp) (by decide) (by decide)

/-! Escaping happens exactly once: decoding the five entities recovers
the original text, and no double-escape artifact can arise unless the
input itself spells an entity. -/

/-- Decoder for the five entities produced by `htmlEscape`. -/
def unescapeHtml : List Char → List Char
  | [] => []
  | c :: rest =>
    if startsWith "&amp;".data (c :: rest) then '&' :: unescapeHtml (rest.drop 4)
    else if startsWith "&lt;".data (c :: rest) then '<' :: unescapeHtml (rest.drop 3)
    else if startsWith "&gt;".data (c :: rest) then '>' :: unescapeHtml (rest.drop 3)
    else if startsWith "&quot;".data (c :: rest) then qm :: unescapeHtml (rest.drop 5)
    else if startsWith "&#x27;".data (c :: rest) then apos :: unescapeHtml (rest.drop 5)
    else c :: unescapeHtml rest
termination_by l => l.length
decreasing_by
  all_goals simp only [List.length_drop, List.length_cons]
  all_goals omega

theorem unescapeHtml_cons (c : Char) (rest : List Char) :
    unescapeHtml (c :: rest) =
      if startsWith "&amp;".data (c :: rest) then '&' :: unescapeHtml (rest.drop 4)
      else if startsWith "&lt;".data (c :: rest) then '<' :: unescapeHtml (rest.drop 3)
      else if startsWith "&gt;".data (c :: rest) then '>' :: unescapeHtml (rest.drop 3)
      else if startsWith "&quot;".data (c :: rest) then qm :: unescapeHtml (rest.drop 5)
      else if startsWith "&#x27;".data (c :: rest) then apos :: unescapeHtml (rest.drop 5)
      else c :: unescapeHtml rest := by
  simp [unescapeHtml]

theorem startsWith_head_ne {a c : Char} {p X : List Char} (h : c ≠ a) :
    startsWith (a :: p) (c :: X) = false := by
  simp [startsWith, Ne.symm h]

theorem startsWith_append_both (x b t : List Char) :
    startsWith (x ++ b) (x ++ t) = startsWith b t := by
  induction x with
  | nil => rfl
  | cons a x ih => simp [startsWith, ih]

theorem unescape_htmlEscape (s : List Char) : unescapeHtml (htmlEscape s) = s := by
  induction s with
  | nil =>
    rw [show htmlEscape [] = [] from rfl]
    simp [unescapeHtml]
  | cons c s ih =>
    rw [htmlEscape_cons]
    by_cases h1 : c = '&'
    · subst h1
      rw [show htmlEscapeChar '&' = "&amp;".data from rfl]
      show unescapeHtml ('&' :: ("amp;".data ++ htmlEscape s)) = '&' :: s
      rw [unescapeHtml_cons,
        if_pos (show startsWith "&amp;".data ('&' :: ("amp;".data ++ htmlEscape s)) = true from
          startsWith_append_self "&amp;".data (htmlEscape s)),
        show List.drop 4 ("amp;".data ++ htmlEscape s) = htmlEscape s from
          List.drop_left' (by decide), ih]
    by_cases h2 : c = '<'
    · subst h2
      rw [show htmlEscapeChar '<' = "&lt;".data from rfl]
      show unescapeHtml ('&' :: ("lt;".data ++ htmlEscape s)) = '<' :: s
      rw [unescapeHtml_cons,
        if_neg (show ¬(startsWith "&amp;".data ('&' :: ("lt;".data ++ htmlEscape s)) = true) from by
          rw [show '&' :: ("lt;".data ++ htmlEscape s) = "&lt;".data ++ htmlEscape s from rfl,
            not_startsWith_of_mismatch (p := "&amp;".data) (x := "&lt;".data) (htmlEscape s) (by decide)]
          simp),
        if_pos (show startsWith "&lt;".data ('&' :: ("lt;".data ++ htmlEscape s)) = true from
          startsWith_append_self "&lt;".data (htmlEscape s)),
        show List.drop 3 ("lt;".data ++ htmlEscape s) = htmlEscape s from
          List.drop_left' (by decide), ih]
    by_cases h3 : c = '>'
    · subst h3
      rw [show htmlEscapeChar '>' = "&gt;".data from rfl]
      show unescapeHtml ('&' :: ("gt;".data ++ htmlEscape s)) = '>' :: s
      rw [unescapeHtml_cons,
        if_neg (show ¬(startsWith "&amp;".data ('&' :: ("gt;".data ++ htmlEscape s)) = true) from by
          rw [show '&' :: ("gt;".data ++ htmlEscape s) = "&gt;".data ++ htmlEscape s from rfl,
            not_startsWith_of_mismatch (p := "&amp;".data) (x := "&gt;".data) (htmlEscape s) (by decide)]
          simp),
        if_neg (show ¬(startsWith "&lt;".data ('&' :: ("gt;".data ++ htmlEscape s)) = true) from by
          rw [show '&' :: ("gt;".data ++ htmlEscape s) = "&gt;".data ++ htmlEscape s from rfl,
            not_startsWith_of_mismatch (p := "&lt;".data) (x := "&gt;".data) (htmlEscape s) (by decide)]
          simp),
        if_pos (show startsWith "&gt;".data ('&' :: ("gt;".data ++ htmlEscape s)) = true from
          startsWith_append_self "&gt;".data (htmlEscape s)),
        show List.drop 3 ("gt;".data ++ htmlEscape s) = htmlEscape s from
          List.drop_left' (by decide), ih]
    by_cases h4 : c = qm
    · subst h4
      rw [show htmlEscapeChar qm = "&quot;".data from rfl]
      show unescapeHtml ('&' :: ("quot;".data ++ htmlEscape s)) = qm :: s
      rw [unescapeHtml_cons,
        if_neg (show ¬(startsWith "&amp;".data ('&' :: ("quot;".data ++ htmlEscape s)) = true) from by
          rw [show '&' :: ("quot;".data ++ htmlEscape s) = "&quot;".data ++ htmlEscape s from rfl,
            not_startsWith_of_mismatch (p := "&amp;".data) (x := "&quot;".data) (htmlEscape s) (by decide)]
          simp),
        if_neg (show ¬(startsWith "&lt;".data ('&' :: ("quot;".data ++ htmlEscape s)) = true) from by
          rw [show '&' :: ("quot;".data ++ htmlEscape s) = "&quot;".data ++ htmlEscape s from rfl,
            not_startsWith_of_mismatch (p := "&lt;".data) (x := "&quot;".data) (htmlEscape s) (by decide)]
          simp),
        if_neg (show ¬(startsWith "&gt;".data ('&' :: ("quot;".data ++ htmlEscape s)) = true) from by
          rw [show '&' :: ("quot;".data ++ htmlEscape s) = "&quot;".data ++ htmlEscape s from rfl,
            not_startsWith_of_mismatch (p := "&gt;".data) (x := "&quot;".data) (htmlEscape s) (by decide)]
          simp),
        if_pos (show startsWith "&quot;".data ('&' :: ("quot;".data ++ htmlEscape s)) = true from
          startsWith_append_self "&quot;".data (htmlEscape s)),
        show List.drop 5 ("quot;".data ++ htmlEscape s) = htmlEscape s from
          List.drop_left' (by decide), ih]
    by_cases h5 : c = apos
    · subst h5
      rw [show htmlEscapeChar apos = "&#x27;".data from rfl]
      show unescapeHtml ('&' :: ("#x27;".data ++ htmlEscape s)) = apos :: s
      rw [unescapeHtml_cons,
        if_neg (show ¬(startsWith "&amp;".data ('&' :: ("#x27;".data ++ htmlEscape s)) = true) from by
          rw [show '&' :: ("#x27;".data ++ htmlEscape s) = "&#x27;".data ++ htmlEscape s from rfl,
            not_startsWith_of_mismatch (p := "&amp;".data) (x := "&#x27;".data) (htmlEscape s) (by decide)]
          simp),
        if_neg (show ¬(startsWith "&lt;".data ('&' :: ("#x27;".data ++ htmlEscape s)) = true) from by
          rw [show '&' :: ("#x27;".data ++ htmlEscape s) = "&#x27;".data ++ htmlEscape s from rfl,
            not_startsWith_of_mismatch (p := "&lt;".data) (x := "&#x27;".data) (htmlEscape s) (by decide)]
          simp),
        if_neg (show ¬(startsWith "&gt;".data ('&' :: ("#x27;".data ++ htmlEscape s)) = true) from by
          rw [show '&' :: ("#x27;".data ++ htmlEscape s) = "&#x27;".data ++ htmlEscape s from rfl,
            not_startsWith_of_mismatch (p := "&gt;".data) (x := "&#x27;".data) (htmlEscape s) (by decide)]
          simp),
        if_neg (show ¬(startsWith "&quot;".data ('&' :: ("#x27;".data ++ htmlEscape s)) = true) from by
          rw [show '&' :: ("#x27;".data ++ htmlEscape s) = "&#x27;".data ++ htmlEscape s from rfl,
            not_startsWith_of_mismatch (p := "&quot;".data) (x := "&#x27;".data) (htmlEscape s) (by decide)]
          simp),
        if_pos (show startsWith "&#x27;".data ('&' :: ("#x27;".data ++ htmlEscape s)) = true from
          startsWith_append_self "&#x27;".data (htmlEscape s)),
        show List.drop 5 ("#x27;".data ++ htmlEscape s) = htmlEscape s from
          List.drop_left' (by decide), ih]
    · have hch : htmlEscapeChar c = [c] := by
        rw [htmlEscapeChar, if_neg h1, if_neg h2, if_neg h3, if_neg h4, if_neg h5]
      rw [hch, List.singleton_append, unescapeHtml_cons,
        if_neg (show ¬(startsWith "&amp;".data (c :: htmlEscape s) = true) from by
          rw [startsWith_head_ne h1]; simp),
        if_neg (show ¬(startsWith "&lt;".data (c :: htmlEscape s) = true) from by
          rw [startsWith_head_ne h1]; simp),
        if_neg (show ¬(startsWith "&gt;".data (c :: htmlEscape s) = true) from by
          rw [startsWith_head_ne h1]; simp),
        if_neg (show ¬(startsWith "&quot;".data (c :: htmlEscape s) = true) from by
          rw [startsWith_head_ne h1]; simp),
        if_neg (show ¬(startsWith "&#x27;".data (c :: htmlEscape s) = true) from by
          rw [startsWith_head_ne h1]; simp), ih]

theorem htmlEscapeChar_shape (c : Char) :
    htmlEscapeChar c = [c] ∨ ∃ e, htmlEscapeChar c = '&' :: e := by
  unfold htmlEscapeChar
  split_ifs
  · exact Or.inr ⟨"amp;".data, rfl⟩
  · exact Or.inr ⟨"lt;".data, rfl⟩
  · exact Or.inr ⟨"gt;".data, rfl⟩
  · exact Or.inr ⟨"quot;".data, rfl⟩
  · exact Or.inr ⟨"#x27;".data, rfl⟩
  · exact Or.inl rfl

theorem startsWith_escape_lit {x : List Char} :
    ∀ {r : List Char},
      (∀ c ∈ x, c ≠ '&' ∧ c ≠ '<' ∧ c ≠ '>' ∧ c ≠ qm ∧ c ≠ apos) →
      startsWith x (htmlEscape r) = true → startsWith x r = true := by
  induction x with
  | nil => intro r _ _; rfl
  | cons a x ih =>
    intro r hx h
    cases r with
    | nil =>
      rw [show htmlEscape [] = [] from rfl] at h
      exact absurd h (by simp [startsWith])
    | cons d r' =>
      rw [htmlEscape_cons] at h
      rcases htmlEscapeChar_shape d with hd | ⟨e, hd⟩
      · rw [hd, List.singleton_append] at h
        have h' : (a == d) = true ∧ startsWith x (htmlEscape r') = true := by
          simpa [startsWith] using h
        have had : a = d := by simpa using h'.1
        subst had
        simp only [startsWith, beq_self_eq_true, Bool.true_and]
        exact ih (fun c hc => hx c (by simp [hc])) h'.2
      · rw [hd, List.cons_append] at h
        have h' : (a == '&') = true := by
          have := h
          simp only [startsWith, Bool.and_eq_true] at this
          exact this.1
        exact absurd (by simpa using h') (hx a (by simp)).1

theorem artifact_entity_step (e' X : List Char)
    (hy : ∀ c ∈ e', c ≠ '&')
    (hmm2 : hasMismatch "&amp;amp;".data ('&' :: e') = true) :
    countOcc "&amp;amp;".data (('&' :: e') ++ X) =
      countOcc "&amp;amp;".data X := by
  have h := countOcc_cons_shield (a := '&') (q := "amp;amp;".data) (y := e') X hy
  rw [show ("&amp;amp;".data : List Char) = '&' :: "amp;amp;".data from rfl, h,
    if_neg (show ¬(startsWith ('&' :: "amp;amp;".data) ('&' :: (e' ++ X)) = true) from by
      rw [show '&' :: (e' ++ X) = ('&' :: e') ++ X from rfl,
        not_startsWith_of_mismatch X hmm2]
      simp)]
  simp

theorem no_artifact_escape (s : List Char)
    (h0 : countOcc "&amp;".data s = 0) :
    countOcc "&amp;amp;".data (htmlEscape s) = 0 := by
  induction s with
  | nil => rfl
  | cons c s ih =>
    have htail : countOcc "&amp;".data s = 0 := by
      have hle : countOcc "&amp;".data s ≤ countOcc "&amp;".data (c :: s) := by
        rw [countOcc_cons]
        exact Nat.le_add_left _ _
      omega
    have hhead : startsWith "&amp;".data (c :: s) = false := by
      cases hb : startsWith "&amp;".data (c :: s) with
      | false => rfl
      | true =>
        rw [countOcc_cons, hb] at h0
        simp at h0
    rw [htmlEscape_cons]
    by_cases h1 : c = '&'
    · subst h1
      rw [show htmlEscapeChar '&' = "&amp;".data from rfl]
      have hsh := countOcc_cons_shield (a := '&') (q := "amp;amp;".data)
        (y := "amp;".data) (htmlEscape s) (by decide)
      rw [show ("&amp;".data : List Char) = '&' :: "amp;".data from rfl,
        show ("&amp;amp;".data : List Char) = '&' :: "amp;amp;".data from rfl, hsh,
        if_neg (show ¬(startsWith ('&' :: "amp;amp;".data)
            ('&' :: ("amp;".data ++ htmlEscape s)) = true) from ?_)]
      · simpa using ih htail
      · show ¬(startsWith ("&amp;".data ++ "amp;".data)
            ("&amp;".data ++ htmlEscape s) = true)
        rw [startsWith_append_both]
        cases hb : startsWith "amp;".data (htmlEscape s) with
        | false => simp
        | true =>
          exfalso
          have hlit := startsWith_escape_lit (by decide) hb
          rcases startsWith_iff.mp hlit with ⟨z, hz⟩
          have hself : startsWith "&amp;".data ('&' :: s) = true := by
            rw [← hz]
            exact startsWith_append_self "&amp;".data z
          rw [hself] at hhead
          simp at hhead
    by_cases h2 : c = '<'
    · subst h2
      rw [show htmlEscapeChar '<' = '&' :: "lt;".data from rfl,
        artifact_entity_step "lt;".data (htmlEscape s) (by decide) (by decide)]
      exact ih htail
    by_cases h3 : c = '>'
    · subst h3
      rw [show htmlEscapeChar '>' = '&' :: "gt;".data from rfl,
        artifact_entity_step "gt;".data (htmlEscape s) (by decide) (by decide)]
      exact ih htail
    by_cases h4 : c = qm
    · subst h4
      rw [show htmlEscapeChar qm = '&' :: "quot;".data from rfl,
        artifact_entity_step "quot;".data (htmlEscape s) (by decide) (by decide)]
      exact ih htail
    by_cases h5 : c = apos
    · subst h5
      rw [show htmlEscapeChar apos = '&' :: "#x27;".data from rfl,
        artifact_entity_step "#x27;".data (htmlEscape s) (by decide) (by decide)]
      exact ih htail
    · have hch : htmlEscapeChar c = [c] := by
        rw [htmlEscapeChar, if_neg h1, if_neg h2, if_neg h3, if_neg h4, if_neg h5]
      rw [hch, List.singleton_append, countOcc_cons,
        show startsWith "&amp;amp;".data (c :: htmlEscape s) = false from
          startsWith_head_ne h1]
      simpa using ih htail

/-- C4 counterexample: the five-character input `&amp;` contains exactly
one literal ampersand, yet the converted document contains the substring
`&amp;amp;` — so the claim's "an input containing a single literal
ampersand never yields &amp;amp;" is false as stated, even though the
ampersand is escaped exactly once. -/
theorem claim_C4_counterexample :
    countOcc ['&'] "&amp;".data = 1 ∧
    countOcc "&amp;amp;".data (chatToEnml "&amp;".data) = 1 :=
  ⟨by decide, by decide⟩

/-- C4 as amended: literal angle brackets never survive the escape,
decoding the escape recovers the input exactly (each character is
escaped exactly once, never twice), and the artifact `&amp;amp;` cannot
appear unless the input itself contains the character sequence `&amp;`;
in particular `a & b` converts with a single `&amp;` and no artifact,
and a heading escapes its angle brackets. -/
theorem claim_C4_escape_once :
    (∀ s : List Char, ∀ x ∈ htmlEscape s, x ≠ '<' ∧ x ≠ '>') ∧
    (∀ s : List Char, unescapeHtml (htmlEscape s) = s) ∧
    (∀ s : List Char, countOcc "&amp;".data s = 0 →
      countOcc "&amp;amp;".data (htmlEscape s) = 0) ∧
    chatToEnml "a & b".data =
      enmlHeader ++ "<div>a &amp; b</div>".data ++ "</en-note>".data ∧
    countOcc "&amp;".data (chatToEnml "a & b".data) = 1 ∧
    countOcc "&amp;amp;".data (chatToEnml "a & b".data) = 0 ∧
    chatToEnml "# a<b".data =
      enmlHeader ++ "<h1>a&lt;b</h1>".data ++ "</en-note>".data :=
  ⟨htmlEscape_no_angle, unescape_htmlEscape, no_artifact_escape,
   by decide, by decide, by decide, by decide⟩

/-- Witness for C4: the universally quantified parts applied at
concrete inputs, with their hypotheses discharged. -/
theorem claim_C4_witness :
    unescapeHtml (htmlEscape "a & b".data) = "a & b".data ∧
    countOcc "&amp;amp;".data (htmlEscape "x & y".data) = 0 ∧
    ('&' ≠ '<' ∧ '&' ≠ '>') :=
  ⟨claim_C4_escape_once.2.1 "a & b".data,
   claim_C4_escape_once.2.2.1 "x & y".data (by decide),
   claim_C4_escape_once.1 "x&y".data '&' (by decide)⟩

/-! Structure of the placeholder tokens: digit characters, injectivity
of the decimal representation, and escape transparency. -/

theorem natDigitsAux_ne_nil (fuel n : Nat) : natDigitsAux (fuel + 1) n ≠ [] := by
  simp only [natDigitsAux]
  split
  · simp
  · simp

theorem natDigitsAux_mem (fuel : Nat) :
    ∀ (n : Nat), ∀ c ∈ natDigitsAux fuel n,
      ∃ d, d < 10 ∧ c = Char.ofNat (48 + d) := by
  induction fuel with
  | zero => intro n c hc; cases hc
  | succ fuel ih =>
    intro n c hc
    by_cases h : n < 10
    · rw [show natDigitsAux (fuel + 1) n = [Char.ofNat (48 + n)] by
        simp [natDigitsAux, h]] at hc
      exact ⟨n, h, by simpa using hc⟩
    · rw [show natDigitsAux (fuel + 1) n =
          natDigitsAux fuel (n / 10) ++ [Char.ofNat (48 + n % 10)] by
        simp [natDigitsAux, h]] at hc
      rcases List.mem_append.mp hc with h1 | h1
      · exact ih (n / 10) c h1
      · exact ⟨n % 10, Nat.mod_lt _ (by omega), by simpa using h1⟩

theorem digit_char_facts : ∀ d, d < 10 → Char.ofNat (48 + d) ≠ nul ∧
    Char.ofNat (48 + d) ≠ 'C' ∧ Char.ofNat (48 + d) ≠ '*' ∧
    htmlEscapeChar (Char.ofNat (48 + d)) = [Char.ofNat (48 + d)] := by decide

theorem digit_char_inj : ∀ d, d < 10 → ∀ e, e < 10 →
    Char.ofNat (48 + d) = Char.ofNat (48 + e) → d = e := by decide

theorem natDigitsAux_inj :
    ∀ (n f1 f2 m : Nat), n < f1 → m < f2 →
      natDigitsAux f1 n = natDigitsAux f2 m → n = m := by
  intro n
  induction n using Nat.strong_induction_on with
  | _ n ih =>
    intro f1 f2 m hn hm heq
    obtain ⟨f1', rfl⟩ := Nat.exists_eq_succ_of_ne_zero (show f1 ≠ 0 by omega)
    obtain ⟨f2', rfl⟩ := Nat.exists_eq_succ_of_ne_zero (show f2 ≠ 0 by omega)
    by_cases h1 : n < 10 <;> by_cases h2 : m < 10
    · rw [show natDigitsAux f1'.succ n = [Char.ofNat (48 + n)] by
          simp [natDigitsAux, h1],
        show natDigitsAux f2'.succ m = [Char.ofNat (48 + m)] by
          simp [natDigitsAux, h2]] at heq
      injection heq with ha _
      exact digit_char_inj n h1 m h2 ha
    · exfalso
      rw [show natDigitsAux f1'.succ n = [Char.ofNat (48 + n)] by
          simp [natDigitsAux, h1],
        show natDigitsAux f2'.succ m =
            natDigitsAux f2' (m / 10) ++ [Char.ofNat (48 + m % 10)] by
          simp [natDigitsAux, h2]] at heq
      obtain ⟨f2'', rfl⟩ := Nat.exists_eq_succ_of_ne_zero (show f2' ≠ 0 by omega)
      rcases hY : natDigitsAux (f2'' + 1) (m / 10) with _ | ⟨a, as⟩
      · exact natDigitsAux_ne_nil f2'' (m / 10) hY
      · rw [hY, List.cons_append] at heq
        injection heq with _ htl
        simp at htl
    · exfalso
      rw [show natDigitsAux f2'.succ m = [Char.ofNat (48 + m)] by
          simp [natDigitsAux, h2],
        show natDigitsAux f1'.succ n =
            natDigitsAux f1' (n / 10) ++ [Char.ofNat (48 + n % 10)] by
          simp [natDigitsAux, h1]] at heq
      obtain ⟨f1'', rfl⟩ := Nat.exists_eq_succ_of_ne_zero (show f1' ≠ 0 by omega)
      rcases hY : natDigitsAux (f1'' + 1) (n / 10) with _ | ⟨a, as⟩
      · exact natDigitsAux_ne_nil f1'' (n / 10) hY
      · rw [hY, List.cons_append] at heq
        injection heq with _ htl
        simp at htl
    · rw [show natDigitsAux f1'.succ n =
            natDigitsAux f1' (n / 10) ++ [Char.ofNat (48 + n % 10)] by
          simp [natDigitsAux, h1],
        show natDigitsAux f2'.succ m =
            natDigitsAux f2' (m / 10) ++ [Char.ofNat (48 + m % 10)] by
          simp [natDigitsAux, h2]] at heq
      have hrev := congrArg List.reverse heq
      simp only [List.reverse_append, List.reverse_cons, List.reverse_nil,
        List.nil_append, List.singleton_append] at hrev
      injection hrev with hhd htl
      have hmod : n % 10 = m % 10 :=
        digit_char_inj _ (Nat.mod_lt n (by omega)) _ (Nat.mod_lt m (by omega)) hhd
      have hdn : n / 10 < n := Nat.div_lt_self (by omega) (by omega)
      have hdm : m / 10 < m := Nat.div_lt_self (by omega) (by omega)
      have hdiv : n / 10 = m / 10 :=
        ih (n / 10) hdn f1' f2' (m / 10) (by omega) (by omega)
          (List.reverse_inj.mp htl)
      have e1 := Nat.div_add_mod n 10
      have e2 := Nat.div_add_mod m 10
      omega

theorem natDigits_inj {n m : Nat} (h : natDigits n = natDigits m) : n = m :=
  natDigitsAux_inj n (n + 1) (m + 1) m (Nat.lt_succ_self n) (Nat.lt_succ_self m) h

theorem natDigits_facts (i : Nat) : ∀ c ∈ natDigits i,
    c ≠ nul ∧ c ≠ 'C' ∧ c ≠ '*' ∧ htmlEscapeChar c = [c] := by
  intro c hc
  obtain ⟨d, hd, rfl⟩ := natDigitsAux_mem (i + 1) i c hc
  exact digit_char_facts d hd

theorem natDigits_nul_free (i : Nat) : nul ∉ natDigits i :=
  fun h => (natDigits_facts i nul h).1 rfl

theorem placeholder_eq (i : Nat) :
    placeholder i = nul :: ("CODE".data ++ (natDigits i ++ [nul])) := rfl

theorem placeholder_facts (i : Nat) : ∀ c ∈ placeholder i,
    c ≠ '*' ∧ htmlEscapeChar c = [c] := by
  intro c hc
  rw [placeholder_eq] at hc
  rcases List.mem_cons.mp hc with rfl | hc
  · exact ⟨by decide, by decide⟩
  rcases List.mem_append.mp hc with hc | hc
  · exact (show ∀ x ∈ "CODE".data, x ≠ '*' ∧ htmlEscapeChar x = [x] by decide) c hc
  rcases List.mem_append.mp hc with hc | hc
  · have h := natDigits_facts i c hc
    exact ⟨h.2.2.1, h.2.2.2⟩
  · have : c = nul := by simpa using hc
    subst this
    exact ⟨by decide, by decide⟩

theorem placeholder_no_star (i : Nat) : ∀ c ∈ placeholder i, c ≠ '*' :=
  fun c hc => (placeholder_facts i c hc).1

theorem phTail_no_star (i : Nat) :
    ∀ c ∈ "CODE".data ++ (natDigits i ++ [nul]), c ≠ '*' := by
  intro c hc
  refine placeholder_no_star i c ?_
  rw [placeholder_eq]
  exact List.mem_cons_of_mem _ hc

theorem htmlEscape_id_of (s : List Char) (h : ∀ c ∈ s, htmlEscapeChar c = [c]) :
    htmlEscape s = s := by
  induction s with
  | nil => rfl
  | cons c s ih =>
    rw [htmlEscape_cons, h c (by simp), ih fun d hd => h d (by simp [hd])]
    rfl

theorem htmlEscape_placeholder (i : Nat) :
    htmlEscape (placeholder i) = placeholder i :=
  htmlEscape_id_of _ fun c hc => (placeholder_facts i c hc).2

theorem startsWith_nul_sep :
    ∀ (x y r : List Char), nul ∉ x → nul ∉ y →
      startsWith (x ++ [nul]) (y ++ nul :: r) = true → x = y := by
  intro x
  induction x with
  | nil =>
    intro y r _ hy h
    cases y with
    | nil => rfl
    | cons d y' =>
      exfalso
      simp only [List.nil_append, List.cons_append, startsWith, Bool.and_eq_true,
        beq_iff_eq] at h
      have : d = nul := h.1.symm
      subst this
      exact hy (List.mem_cons_self _ _)
  | cons a x' ih =>
    intro y r hx hy h
    cases y with
    | nil =>
      exfalso
      simp only [List.cons_append, List.nil_append, startsWith, Bool.and_eq_true,
        beq_iff_eq] at h
      have : a = nul := h.1
      subst this
      exact hx (List.mem_cons_self _ _)
    | cons d y' =>
      simp only [List.cons_append, startsWith, Bool.and_eq_true, beq_iff_eq] at h
      obtain ⟨rfl, h2⟩ := h
      rw [ih y' r (fun hm => hx (List.mem_cons_of_mem _ hm))
        (fun hm => hy (List.mem_cons_of_mem _ hm)) h2]

theorem placeholder_cross {i j : Nat} (hij : i ≠ j) (r : List Char) :
    startsWith (placeholder i) (placeholder j ++ r) = false := by
  rw [Bool.eq_false_iff]
  intro h
  apply hij
  apply natDigits_inj
  have h' : startsWith ((nul :: "CODE".data) ++ (natDigits i ++ [nul]))
      (((nul :: "CODE".data) ++ (natDigits j ++ [nul])) ++ r) = true := h
  rw [List.append_assoc, startsWith_append_both, List.append_assoc,
    List.singleton_append] at h'
  exact startsWith_nul_sep _ _ _ (natDigits_nul_free i) (natDigits_nul_free j) h'

/-! The chunk invariant: through the inline pipeline, the working string
is an alternation of placeholder-free segments and the placeholder
tokens `i, i+1, ...` in index order, one per extracted code span, where
segments avoid the placeholder alphabet (no NUL and no `C`). -/

/-- `ChunksT i t cs` : `t` decomposes as segments interleaved with the
placeholders of indices `i, i + 1, ...`, one per element of `cs`, with
every segment free of `NUL` and `C`, and every code content in `cs`
free of `NUL`. -/
def ChunksT : Nat → List Char → List (List Char) → Prop
  | _, t, [] => nul ∉ t ∧ 'C' ∉ t
  | i, t, code :: cs =>
      ∃ A u, t = A ++ (placeholder i ++ u) ∧ nul ∉ A ∧ 'C' ∉ A ∧
        nul ∉ code ∧ ChunksT (i + 1) u cs

theorem chunksT_cons_safe {c : Char} (hc1 : c ≠ nul) (hc2 : c ≠ 'C')
    {i : Nat} {t : List Char} {cs : List (List Char)}
    (h : ChunksT i t cs) : ChunksT i (c :: t) cs := by
  cases cs with
  | nil =>
    refine ⟨?_, ?_⟩
    · intro hm
      rcases List.mem_cons.mp hm with h' | h'
      · exact hc1 h'.symm
      · exact h.1 h'
    · intro hm
      rcases List.mem_cons.mp hm with h' | h'
      · exact hc2 h'.symm
      · exact h.2 h'
  | cons code cs =>
    obtain ⟨A, u, heq, hA1, hA2, hcode, hrest⟩ := h
    refine ⟨c :: A, u, by rw [heq, List.cons_append], ?_, ?_, hcode, hrest⟩
    · intro hm
      rcases List.mem_cons.mp hm with h' | h'
      · exact hc1 h'.symm
      · exact hA1 h'
    · intro hm
      rcases List.mem_cons.mp hm with h' | h'
      · exact hc2 h'.symm
      · exact hA2 h'

theorem chunksT_append_safe {i : Nat} {t : List Char} {cs : List (List Char)}
    (h : ChunksT i t cs) :
    ∀ X : List Char, nul ∉ X → 'C' ∉ X → ChunksT i (X ++ t) cs := by
  intro X
  induction X with
  | nil => intro _ _; exact h
  | cons c X ih =>
    intro h1 h2
    rw [List.cons_append]
    exact chunksT_cons_safe
      (fun hc => h1 (by rw [hc]; exact List.mem_cons_self _ _))
      (fun hc => h2 (by rw [hc]; exact List.mem_cons_self _ _))
      (ih (fun hm => h1 (List.mem_cons_of_mem _ hm))
        (fun hm => h2 (List.mem_cons_of_mem _ hm)))

theorem chunksT_drop_cons {c : Char} (hc : c ≠ nul) {i : Nat} {t : List Char}
    {cs : List (List Char)} (h : ChunksT i (c :: t) cs) : ChunksT i t cs := by
  cases cs with
  | nil =>
    exact ⟨fun hm => h.1 (List.mem_cons_of_mem _ hm),
      fun hm => h.2 (List.mem_cons_of_mem _ hm)⟩
  | cons code cs =>
    obtain ⟨A, u, heq, hA1, hA2, hcode, hrest⟩ := h
    cases A with
    | nil =>
      exfalso
      rw [List.nil_append, placeholder_eq, List.cons_append] at heq
      injection heq with h1 _
      exact hc h1
    | cons d A' =>
      rw [List.cons_append] at heq
      injection heq with h1 h2
      subst h1
      exact ⟨A', u, h2, fun hm => hA1 (List.mem_cons_of_mem _ hm),
        fun hm => hA2 (List.mem_cons_of_mem _ hm), hcode, hrest⟩

/-- Exchanging the tail `V` of a chunk-structured string for any `W`
that preserves all chunk structures of `V`, provided `V` starts with an
asterisk (so that no placeholder straddles the boundary). -/
theorem chunksT_exchange :
    ∀ (cs : List (List Char)) (i : Nat) (P : List Char) {V W : List Char},
      (∃ V0, V = '*' :: V0) →
      (∀ (j : Nat) (cs2 : List (List Char)), ChunksT j V cs2 → ChunksT j W cs2) →
      ChunksT i (P ++ V) cs → ChunksT i (P ++ W) cs := by
  intro cs
  induction cs with
  | nil =>
    intro i P V W hV hW h
    have hVf : ChunksT 0 V [] :=
      ⟨fun hm => h.1 (List.mem_append_right P hm),
       fun hm => h.2 (List.mem_append_right P hm)⟩
    have hWf := hW 0 [] hVf
    exact ⟨fun hm => (List.mem_append.mp hm).elim
        (fun h' => h.1 (List.mem_append_left V h')) hWf.1,
      fun hm => (List.mem_append.mp hm).elim
        (fun h' => h.2 (List.mem_append_left V h')) hWf.2⟩
  | cons code cs ih =>
    intro i P V W hV hW h
    obtain ⟨A, u, heq, hA1, hA2, hcode, hrest⟩ := h
    rcases List.append_eq_append_iff.mp heq with ⟨a', ha1, ha2⟩ | ⟨c', hc1, hc2⟩
    · have hVs : ChunksT i V (code :: cs) :=
        ⟨a', u, ha2, fun hm => hA1 (by rw [ha1]; exact List.mem_append_right P hm),
          fun hm => hA2 (by rw [ha1]; exact List.mem_append_right P hm), hcode, hrest⟩
      obtain ⟨B, u', hweq, hB1, hB2, hcode', hrest'⟩ := hW i (code :: cs) hVs
      refine ⟨P ++ B, u', ?_, ?_, ?_, hcode', hrest'⟩
      · rw [hweq, List.append_assoc]
      · intro hm
        rcases List.mem_append.mp hm with h' | h'
        · exact hA1 (by rw [ha1]; exact List.mem_append_left a' h')
        · exact hB1 h'
      · intro hm
        rcases List.mem_append.mp hm with h' | h'
        · exact hA2 (by rw [ha1]; exact List.mem_append_left a' h')
        · exact hB2 h'
    · rcases List.append_eq_append_iff.mp hc2 with ⟨x, hx1, hx2⟩ | ⟨y, hy1, hy2⟩
      · refine ⟨A, x ++ W, ?_, hA1, hA2, hcode, ?_⟩
        · rw [hc1, hx1]
          simp [List.append_assoc]
        · exact ih (i + 1) x hV hW (hx2 ▸ hrest)
      · cases y with
        | nil =>
          rw [List.append_nil] at hy1
          rw [List.nil_append] at hy2
          refine ⟨A, W, ?_, hA1, hA2, hcode, ?_⟩
          · rw [hc1, ← hy1]
            simp [List.append_assoc]
          · exact hW (i + 1) cs (hy2.symm ▸ hrest)
        | cons e y' =>
          exfalso
          obtain ⟨V0, rfl⟩ := hV
          rw [List.cons_append] at hy2
          injection hy2 with h1 _
          have he : e ∈ placeholder i := by
            rw [hy1]
            exact List.mem_append_right c' (List.mem_cons_self _ _)
          exact placeholder_no_star i e he h1.symm

/-! The extraction pass establishes the chunk invariant, and the escape
pass preserves it. -/

theorem extract_chunks :
    ∀ (l : List Char) (st : Option (List Char)) (i : Nat), nul ∉ l → 'C' ∉ l →
      (∀ buf, st = some buf → nul ∉ buf ∧ 'C' ∉ buf) →
      ChunksT i (extractAux i l st).1 (extractAux i l st).2 := by
  intro l
  induction l with
  | nil =>
    intro st i _ _ hst
    cases st with
    | none =>
      show ChunksT i [] []
      exact ⟨(fun h => by cases h), (fun h => by cases h)⟩
    | some buf =>
      obtain ⟨h1, h2⟩ := hst buf rfl
      show ChunksT i (bq :: buf.reverse) []
      refine ⟨?_, ?_⟩
      · intro hm
        rcases List.mem_cons.mp hm with h' | h'
        · exact absurd h'.symm (by decide)
        · exact h1 (List.mem_reverse.mp h')
      · intro hm
        rcases List.mem_cons.mp hm with h' | h'
        · exact absurd h'.symm (by decide)
        · exact h2 (List.mem_reverse.mp h')
  | cons c rest ih =>
    intro st i hnul hC hst
    have hnul' : nul ∉ rest := fun h => hnul (List.mem_cons_of_mem _ h)
    have hC' : 'C' ∉ rest := fun h => hC (List.mem_cons_of_mem _ h)
    have hcnul : c ≠ nul := fun h => by subst h; exact hnul (List.mem_cons_self _ _)
    have hcC : c ≠ 'C' := fun h => by subst h; exact hC (List.mem_cons_self _ _)
    cases st with
    | none =>
      by_cases hc : c = bq
      · rw [show extractAux i (c :: rest) none = extractAux i rest (some []) by
          simp [extractAux, hc]]
        exact ih (some []) i hnul' hC'
          (by intro buf hb; injection hb with hb; subst hb; exact ⟨by simp, by simp⟩)
      · rcases hres : extractAux i rest none with ⟨t, cs⟩
        have hch := ih none i hnul' hC' (by intro buf hb; cases hb)
        rw [hres] at hch
        rw [show extractAux i (c :: rest) none = (c :: t, cs) by
          simp [extractAux, hc, hres]]
        exact chunksT_cons_safe hcnul hcC hch
    | some buf =>
      obtain ⟨hb1, hb2⟩ := hst buf rfl
      by_cases hc : c = bq
      · by_cases hbuf : buf.isEmpty
        · rcases hres : extractAux i rest (some []) with ⟨t, cs⟩
          have hch := ih (some []) i hnul' hC'
            (by intro b hb; injection hb with hb; subst hb; exact ⟨by simp, by simp⟩)
          rw [hres] at hch
          rw [show extractAux i (c :: rest) (some buf) = (bq :: t, cs) by
            simp [extractAux, hc, hbuf, hres]]
          exact chunksT_cons_safe (c := bq) (by decide) (by decide) hch
        · rcases hres : extractAux (i + 1) rest none with ⟨t, cs⟩
          have hch := ih none (i + 1) hnul' hC' (by intro b hb; cases hb)
          rw [hres] at hch
          rw [show extractAux i (c :: rest) (some buf) =
              (placeholder i ++ t, buf.reverse :: cs) by
            simp [extractAux, hc, hbuf, hres]]
          refine ⟨[], t, by simp, by simp, by simp, ?_, hch⟩
          intro hm
          exact hb1 (List.mem_reverse.mp hm)
      · rw [show extractAux i (c :: rest) (some buf) =
            extractAux i rest (some (c :: buf)) by simp [extractAux, hc]]
        refine ih (some (c :: buf)) i hnul' hC' ?_
        intro b hb
        injection hb with hb
        subst hb
        constructor
        · intro hm
          rcases List.mem_cons.mp hm with h' | h'
          · exact hcnul h'.symm
          · exact hb1 h'
        · intro hm
          rcases List.mem_cons.mp hm with h' | h'
          · exact hcC h'.symm
          · exact hb2 h'

theorem htmlEscapeChar_mem (c x : Char) (hx : x ∈ htmlEscapeChar c) :
    x = c ∨ x ∈ "&amp;&lt;&gt;&quot;&#x27;".data := by
  by_cases h1 : c = '&'
  · rw [htmlEscapeChar, if_pos h1] at hx
    exact Or.inr ((show ∀ y ∈ "&amp;".data,
      y ∈ "&amp;&lt;&gt;&quot;&#x27;".data by decide) x hx)
  by_cases h2 : c = '<'
  · rw [htmlEscapeChar, if_neg h1, if_pos h2] at hx
    exact Or.inr ((show ∀ y ∈ "&lt;".data,
      y ∈ "&amp;&lt;&gt;&quot;&#x27;".data by decide) x hx)
  by_cases h3 : c = '>'
  · rw [htmlEscapeChar, if_neg h1, if_neg h2, if_pos h3] at hx
    exact Or.inr ((show ∀ y ∈ "&gt;".data,
      y ∈ "&amp;&lt;&gt;&quot;&#x27;".data by decide) x hx)
  by_cases h4 : c = qm
  · rw [htmlEscapeChar, if_neg h1, if_neg h2, if_neg h3, if_pos h4] at hx
    exact Or.inr ((show ∀ y ∈ "&quot;".data,
      y ∈ "&amp;&lt;&gt;&quot;&#x27;".data by decide) x hx)
  by_cases h5 : c = apos
  · rw [htmlEscapeChar, if_neg h1, if_neg h2, if_neg h3, if_neg h4, if_pos h5] at hx
    exact Or.inr ((show ∀ y ∈ "&#x27;".data,
      y ∈ "&amp;&lt;&gt;&quot;&#x27;".data by decide) x hx)
  · rw [htmlEscapeChar, if_neg h1, if_neg h2, if_neg h3, if_neg h4, if_neg h5] at hx
    exact Or.inl (by simpa using hx)

theorem htmlEscape_mem {x : Char} {s : List Char} (hx : x ∈ htmlEscape s) :
    x ∈ s ∨ x ∈ "&amp;&lt;&gt;&quot;&#x27;".data := by
  unfold htmlEscape at hx
  rcases List.mem_flatten.mp hx with ⟨l, hl, hxl⟩
  rcases List.mem_map.mp hl with ⟨c, hcs, rfl⟩
  rcases htmlEscapeChar_mem c x hxl with rfl | h
  · exact Or.inl hcs
  · exact Or.inr h

theorem htmlEscape_not_mem {a : Char}
    (ha : a ∉ "&amp;&lt;&gt;&quot;&#x27;".data) {s : List Char} (hs : a ∉ s) :
    a ∉ htmlEscape s := fun hm => (htmlEscape_mem hm).elim hs ha

theorem escape_chunks :
    ∀ (cs : List (List Char)) (i : Nat) (t : List Char),
      ChunksT i t cs → ChunksT i (htmlEscape t) cs := by
  intro cs
  induction cs with
  | nil =>
    intro i t h
    exact ⟨htmlEscape_not_mem (by decide) h.1, htmlEscape_not_mem (by decide) h.2⟩
  | cons code cs ih =>
    intro i t h
    obtain ⟨A, u, heq, hA1, hA2, hcode, hrest⟩ := h
    rw [heq, htmlEscape_append, htmlEscape_append, htmlEscape_placeholder]
    exact ⟨htmlEscape A, htmlEscape u, rfl, htmlEscape_not_mem (by decide) hA1,
      htmlEscape_not_mem (by decide) hA2, hcode, ih (i + 1) u hrest⟩

/-! Character tracking through the bold and italic scanners. -/

/-- The input characters a bold-scanner state still owes to the output:
pending asterisks and the collected buffer. -/
def boldVirtual : BoldSt → List Char
  | .norm => []
  | .one => ['*']
  | .coll buf => '*' :: '*' :: buf.reverse
  | .cls buf => '*' :: '*' :: buf.reverse ++ ['*']

/-- The pending-content buffer of an italic-scanner state. -/
def italBuf : Option (List Char) → List Char
  | none => []
  | some b => b

/-- The input characters an italic-scanner state still owes to the
output. -/
def italVirtual : Option (List Char) → List Char
  | none => []
  | some buf => '*' :: buf.reverse

theorem subBoldAux_free :
    ∀ (l : List Char) (st : BoldSt) (a : Char), a ∉ l → a ∉ boldBuf st →
      a ∉ "<strong></strong>*".data → a ∉ subBoldAux l st := by
  intro l
  induction l with
  | nil =>
    intro st a _ hb he
    cases st with
    | norm => simp [subBoldAux]
    | one =>
      intro hm
      simp only [subBoldAux, List.mem_singleton] at hm
      subst hm
      exact he (by decide)
    | coll buf =>
      intro hm
      rcases List.mem_cons.mp hm with rfl | hm
      · exact he (by decide)
      rcases List.mem_cons.mp hm with rfl | hm
      · exact he (by decide)
      · exact hb (List.mem_reverse.mp hm)
    | cls buf =>
      intro hm
      rcases List.mem_append.mp hm with hm | hm
      · rcases List.mem_cons.mp hm with rfl | hm
        · exact he (by decide)
        rcases List.mem_cons.mp hm with rfl | hm
        · exact he (by decide)
        · exact hb (List.mem_reverse.mp hm)
      · have : a = '*' := by simpa using hm
        subst this
        exact he (by decide)
  | cons c rest ih =>
    intro st a hl hb he
    have hl' : a ∉ rest := fun h => hl (List.mem_cons_of_mem _ h)
    have hac : a ≠ c := fun h => hl (by rw [h]; exact List.mem_cons_self _ _)
    cases st with
    | norm =>
      by_cases hc : c = '*'
      · rw [show subBoldAux (c :: rest) .norm = subBoldAux rest .one by
          simp [subBoldAux, hc]]
        exact ih .one a hl' (by simp [boldBuf]) he
      · rw [show subBoldAux (c :: rest) .norm = c :: subBoldAux rest .norm by
          simp [subBoldAux, hc]]
        intro hm
        rcases List.mem_cons.mp hm with h' | h'
        · exact hac h'
        · exact ih .norm a hl' (by simp [boldBuf]) he h'
    | one =>
      by_cases hc : c = '*'
      · rw [show subBoldAux (c :: rest) .one = subBoldAux rest (.coll []) by
          simp [subBoldAux, hc]]
        exact ih (.coll []) a hl' (by simp [boldBuf]) he
      · rw [show subBoldAux (c :: rest) .one = '*' :: c :: subBoldAux rest .norm by
          simp [subBoldAux, hc]]
        intro hm
        rcases List.mem_cons.mp hm with rfl | hm
        · exact he (by decide)
        rcases List.mem_cons.mp hm with h' | h'
        · exact hac h'
        · exact ih .norm a hl' (by simp [boldBuf]) he h'
    | coll buf =>
      by_cases hc : c = '*'
      · by_cases hbuf : buf.isEmpty
        · rw [show subBoldAux (c :: rest) (.coll buf) =
              '*' :: subBoldAux rest (.coll []) by simp [subBoldAux, hc, hbuf]]
          intro hm
          rcases List.mem_cons.mp hm with rfl | hm
          · exact he (by decide)
          · exact ih (.coll []) a hl' (by simp [boldBuf]) he hm
        · rw [show subBoldAux (c :: rest) (.coll buf) = subBoldAux rest (.cls buf) by
            simp [subBoldAux, hc, hbuf]]
          exact ih (.cls buf) a hl' hb he
      · rw [show subBoldAux (c :: rest) (.coll buf) =
            subBoldAux rest (.coll (c :: buf)) by simp [subBoldAux, hc]]
        refine ih (.coll (c :: buf)) a hl' ?_ he
        intro hm
        rcases List.mem_cons.mp hm with h' | h'
        · exact hac h'
        · exact hb h'
    | cls buf =>
      by_cases hc : c = '*'
      · rw [show subBoldAux (c :: rest) (.cls buf) =
            "<strong>".data ++ buf.reverse ++ "</strong>".data ++ subBoldAux rest .norm by
          simp [subBoldAux, hc]]
        intro hm
        rcases List.mem_append.mp hm with hm | hm
        · rcases List.mem_append.mp hm with hm | hm
          · rcases List.mem_append.mp hm with hm | hm
            · exact he ((show ∀ y ∈ "<strong>".data,
                y ∈ "<strong></strong>*".data by decide) a hm)
            · exact hb (List.mem_reverse.mp hm)
          · exact he ((show ∀ y ∈ "</strong>".data,
              y ∈ "<strong></strong>*".data by decide) a hm)
        · exact ih .norm a hl' (by simp [boldBuf]) he hm
      · rw [show subBoldAux (c :: rest) (.cls buf) =
            ('*' :: '*' :: buf.reverse) ++ ('*' :: c :: subBoldAux rest .norm) by
          simp [subBoldAux, hc]]
        intro hm
        rcases List.mem_append.mp hm with hm | hm
        · rcases List.mem_cons.mp hm with rfl | hm
          · exact he (by decide)
          rcases List.mem_cons.mp hm with rfl | hm
          · exact he (by decide)
          · exact hb (List.mem_reverse.mp hm)
        · rcases List.mem_cons.mp hm with rfl | hm
          · exact he (by decide)
          rcases List.mem_cons.mp hm with h' | h'
          · exact hac h'
          · exact ih .norm a hl' (by simp [boldBuf]) he h'

theorem subItalicAux_free :
    ∀ (l : List Char) (st : Option (List Char)) (a : Char), a ∉ l → a ∉ italBuf st →
      a ∉ "<em></em>*".data → a ∉ subItalicAux l st := by
  intro l
  induction l with
  | nil =>
    intro st a _ hb he
    cases st with
    | none => simp [subItalicAux]
    | some buf =>
      intro hm
      rcases List.mem_cons.mp hm with rfl | hm
      · exact he (by decide)
      · exact hb (List.mem_reverse.mp hm)
  | cons c rest ih =>
    intro st a hl hb he
    have hl' : a ∉ rest := fun h => hl (List.mem_cons_of_mem _ h)
    have hac : a ≠ c := fun h => hl (by rw [h]; exact List.mem_cons_self _ _)
    cases st with
    | none =>
      by_cases hc : c = '*'
      · rw [show subItalicAux (c :: rest) none = subItalicAux rest (some []) by
          simp [subItalicAux, hc]]
        exact ih (some []) a hl' (by simp [italBuf]) he
      · rw [show subItalicAux (c :: rest) none = c :: subItalicAux rest none by
          simp [subItalicAux, hc]]
        intro hm
        rcases List.mem_cons.mp hm with h' | h'
        · exact hac h'
        · exact ih none a hl' (by simp [italBuf]) he h'
    | some buf =>
      by_cases hc : c = '*'
      · by_cases hbuf : buf.isEmpty
        · rw [show subItalicAux (c :: rest) (some buf) =
              '*' :: subItalicAux rest (some []) by simp [subItalicAux, hc, hbuf]]
          intro hm
          rcases List.mem_cons.mp hm with rfl | hm
          · exact he (by decide)
          · exact ih (some []) a hl' (by simp [italBuf]) he hm
        · rw [show subItalicAux (c :: rest) (some buf) =
              "<em>".data ++ buf.reverse ++ "</em>".data ++ subItalicAux rest none by
            simp [subItalicAux, hc, hbuf]]
          intro hm
          rcases List.mem_append.mp hm with hm | hm
          · rcases List.mem_append.mp hm with hm | hm
            · rcases List.mem_append.mp hm with hm | hm
              · exact he ((show ∀ y ∈ "<em>".data,
                  y ∈ "<em></em>*".data by decide) a hm)
              · exact hb (List.mem_reverse.mp hm)
            · exact he ((show ∀ y ∈ "</em>".data,
                y ∈ "<em></em>*".data by decide) a hm)
          · exact ih none a hl' (by simp [italBuf]) he hm
      · rw [show subItalicAux (c :: rest) (some buf) =
            subItalicAux rest (some (c :: buf)) by simp [subItalicAux, hc]]
        refine ih (some (c :: buf)) a hl' ?_ he
        intro hm
        rcases List.mem_cons.mp hm with h' | h'
        · exact hac h'
        · exact hb h'

theorem subBoldAux_copy {x : List Char} (z : List Char) (hx : ∀ c ∈ x, c ≠ '*') :
    subBoldAux (x ++ z) .norm = x ++ subBoldAux z .norm := by
  induction x with
  | nil => rfl
  | cons c x ih =>
    have hc : c ≠ '*' := hx c (by simp)
    simp only [List.cons_append, subBoldAux, if_neg hc, List.append_eq]
    rw [ih fun d hd => hx d (by simp [hd])]

/-! The bold and italic passes preserve the chunk invariant. -/

theorem bc_cons_norm (n : Nat)
    (ih : ∀ r : List Char, r.length ≤ n →
      ∀ (st : BoldSt) (cs : List (List Char)) (i : Nat),
        ChunksT i (boldVirtual st ++ r) cs → ChunksT i (subBoldAux r st) cs)
    (c : Char) (r : List Char) (hr : r.length ≤ n) (hc : c ≠ '*') :
    ∀ (cs : List (List Char)) (i : Nat), ChunksT i (c :: r) cs →
      ChunksT i (c :: subBoldAux r .norm) cs := by
  intro cs i h
  cases cs with
  | nil =>
    have hnul : nul ∉ subBoldAux r .norm :=
      subBoldAux_free r .norm nul (fun hm => h.1 (List.mem_cons_of_mem _ hm))
        (by simp [boldBuf]) (by decide)
    have hCm : 'C' ∉ subBoldAux r .norm :=
      subBoldAux_free r .norm 'C' (fun hm => h.2 (List.mem_cons_of_mem _ hm))
        (by simp [boldBuf]) (by decide)
    constructor
    · intro hm
      rcases List.mem_cons.mp hm with h' | h'
      · exact h.1 (List.mem_cons.mpr (Or.inl h'))
      · exact hnul h'
    · intro hm
      rcases List.mem_cons.mp hm with h' | h'
      · exact h.2 (List.mem_cons.mpr (Or.inl h'))
      · exact hCm h'
  | cons code cs =>
    obtain ⟨A, u, heq, hA1, hA2, hcode, hrest⟩ := h
    cases A with
    | nil =>
      rw [List.nil_append, placeholder_eq, List.cons_append] at heq
      injection heq with h1 h2
      subst h1
      have hlen : u.length ≤ n := by
        have := congrArg List.length h2
        simp only [List.length_append] at this
        omega
      rw [h2, subBoldAux_copy u (phTail_no_star i)]
      refine ⟨[], subBoldAux u .norm,
        by simp [placeholder_eq],
        (fun hx => by cases hx), (fun hx => by cases hx), hcode, ?_⟩
      exact ih u hlen .norm cs (i + 1) (by simpa [boldVirtual] using hrest)
    | cons d A' =>
      rw [List.cons_append] at heq
      injection heq with h1 h2
      subst h1
      have hr' : ChunksT i r (code :: cs) :=
        ⟨A', u, h2, fun hm => hA1 (List.mem_cons_of_mem _ hm),
          fun hm => hA2 (List.mem_cons_of_mem _ hm), hcode, hrest⟩
      obtain ⟨B, u', hweq, hB1, hB2, hcode', hrest'⟩ :=
        ih r hr .norm (code :: cs) i (by simpa [boldVirtual] using hr')
      refine ⟨c :: B, u', by rw [hweq, List.cons_append], ?_, ?_, hcode', hrest'⟩
      · intro hm
        rcases List.mem_cons.mp hm with h' | h'
        · exact hA1 (List.mem_cons.mpr (Or.inl h'))
        · exact hB1 h'
      · intro hm
        rcases List.mem_cons.mp hm with h' | h'
        · exact hA2 (List.mem_cons.mpr (Or.inl h'))
        · exact hB2 h'

theorem bold_chunks_aux :
    ∀ (n : Nat) (r : List Char), r.length ≤ n →
      ∀ (st : BoldSt) (cs : List (List Char)) (i : Nat),
        ChunksT i (boldVirtual st ++ r) cs → ChunksT i (subBoldAux r st) cs := by
  intro n
  induction n with
  | zero =>
    intro r hr st cs i h
    have hr0 : r = [] := List.length_eq_zero.mp (Nat.le_zero.mp hr)
    subst hr0
    rw [show subBoldAux [] st = boldVirtual st by cases st <;> rfl]
    rw [List.append_nil] at h
    exact h
  | succ n ih =>
    intro r hr st cs i h
    cases r with
    | nil =>
      rw [show subBoldAux [] st = boldVirtual st by cases st <;> rfl]
      rw [List.append_nil] at h
      exact h
    | cons c r =>
      have hr' : r.length ≤ n := by simpa using hr
      cases st with
      | norm =>
        by_cases hc : c = '*'
        · subst hc
          rw [show subBoldAux ('*' :: r) .norm = subBoldAux r .one by
            simp [subBoldAux]]
          apply ih r hr' .one cs i
          simpa [boldVirtual] using h
        · rw [show subBoldAux (c :: r) .norm = c :: subBoldAux r .norm by
            simp [subBoldAux, hc]]
          exact bc_cons_norm n ih c r hr' hc cs i (by simpa [boldVirtual] using h)
      | one =>
        by_cases hc : c = '*'
        · subst hc
          rw [show subBoldAux ('*' :: r) .one = subBoldAux r (.coll []) by
            simp [subBoldAux]]
          apply ih r hr' (.coll []) cs i
          simpa [boldVirtual] using h
        · rw [show subBoldAux (c :: r) .one = '*' :: c :: subBoldAux r .norm by
            simp [subBoldAux, hc]]
          have h1 : ChunksT i (c :: r) cs :=
            chunksT_drop_cons (c := '*') (by decide) (by simpa [boldVirtual] using h)
          exact chunksT_cons_safe (c := '*') (by decide) (by decide)
            (bc_cons_norm n ih c r hr' hc cs i h1)
      | coll buf =>
        by_cases hc : c = '*'
        · subst hc
          by_cases hbuf : buf.isEmpty
          · have hbeq : buf = [] := List.isEmpty_iff.mp hbuf
            subst hbeq
            rw [show subBoldAux ('*' :: r) (.coll []) =
                '*' :: subBoldAux r (.coll []) by simp [subBoldAux]]
            have h1 : ChunksT i ('*' :: '*' :: r) cs :=
              chunksT_drop_cons (c := '*') (by decide) (by simpa [boldVirtual] using h)
            have h2 := ih r hr' (.coll []) cs i (by simpa [boldVirtual] using h1)
            exact chunksT_cons_safe (c := '*') (by decide) (by decide) h2
          · rw [show subBoldAux ('*' :: r) (.coll buf) = subBoldAux r (.cls buf) by
              simp [subBoldAux, hbuf]]
            apply ih r hr' (.cls buf) cs i
            simpa [boldVirtual, List.append_assoc] using h
        · rw [show subBoldAux (c :: r) (.coll buf) =
              subBoldAux r (.coll (c :: buf)) by simp [subBoldAux, hc]]
          apply ih r hr' (.coll (c :: buf)) cs i
          simpa [boldVirtual, List.append_assoc] using h
      | cls buf =>
        by_cases hc : c = '*'
        · subst hc
          rw [show subBoldAux ('*' :: r) (.cls buf) =
              "<strong>".data ++ buf.reverse ++ "</strong>".data ++
                subBoldAux r .norm by simp [subBoldAux]]
          have h' : ChunksT i ('*' :: '*' :: (buf.reverse ++ ('*' :: '*' :: r))) cs := by
            simpa [boldVirtual, List.append_assoc] using h
          have h1 : ChunksT i (buf.reverse ++ ('*' :: '*' :: r)) cs :=
            chunksT_drop_cons (c := '*') (by decide) (chunksT_drop_cons (c := '*') (by decide) h')
          have hexch := chunksT_exchange cs i buf.reverse
            (V := '*' :: ('*' :: r)) (W := "</strong>".data ++ subBoldAux r .norm)
            ⟨'*' :: r, rfl⟩
            (fun j cs2 hv => by
              have hv1 : ChunksT j r cs2 :=
                chunksT_drop_cons (c := '*') (by decide) (chunksT_drop_cons (c := '*') (by decide) hv)
              have hv2 := ih r hr' .norm cs2 j (by simpa [boldVirtual] using hv1)
              exact chunksT_append_safe hv2 "</strong>".data (by decide) (by decide))
            h1
          have hfin := chunksT_append_safe hexch "<strong>".data (by decide) (by decide)
          have heq2 : "<strong>".data ++ buf.reverse ++ "</strong>".data ++
              subBoldAux r .norm =
              "<strong>".data ++ (buf.reverse ++ ("</strong>".data ++
                subBoldAux r .norm)) := by
            simp [List.append_assoc]
          rw [heq2]
          exact hfin
        · rw [show subBoldAux (c :: r) (.cls buf) =
              ('*' :: '*' :: buf.reverse) ++ ('*' :: c :: subBoldAux r .norm) by
            simp [subBoldAux, hc]]
          have h' : ChunksT i ('*' :: '*' :: (buf.reverse ++ ('*' :: c :: r))) cs := by
            simpa [boldVirtual, List.append_assoc] using h
          have h1 : ChunksT i (buf.reverse ++ ('*' :: c :: r)) cs :=
            chunksT_drop_cons (c := '*') (by decide) (chunksT_drop_cons (c := '*') (by decide) h')
          have hexch := chunksT_exchange cs i buf.reverse
            (V := '*' :: (c :: r)) (W := '*' :: c :: subBoldAux r .norm)
            ⟨c :: r, rfl⟩
            (fun j cs2 hv => by
              have hv1 : ChunksT j (c :: r) cs2 := chunksT_drop_cons (c := '*') (by decide) hv
              exact chunksT_cons_safe (c := '*') (by decide) (by decide)
                (bc_cons_norm n ih c r hr' hc cs2 j hv1))
            h1
          have hfin := chunksT_cons_safe (c := '*') (by decide) (by decide)
            (chunksT_cons_safe (c := '*') (by decide) (by decide) hexch)
          have heq2 : ('*' :: '*' :: buf.reverse) ++ ('*' :: c :: subBoldAux r .norm)
              = '*' :: '*' :: (buf.reverse ++ ('*' :: c :: subBoldAux r .norm)) := by
            simp
          rw [heq2]
          exact hfin

theorem ic_cons_none (n : Nat)
    (ih : ∀ r : List Char, r.length ≤ n →
      ∀ (st : Option (List Char)) (cs : List (List Char)) (i : Nat),
        ChunksT i (italVirtual st ++ r) cs → ChunksT i (subItalicAux r st) cs)
    (c : Char) (r : List Char) (hr : r.length ≤ n) (hc : c ≠ '*') :
    ∀ (cs : List (List Char)) (i : Nat), ChunksT i (c :: r) cs →
      ChunksT i (c :: subItalicAux r none) cs := by
  intro cs i h
  cases cs with
  | nil =>
    have hnul : nul ∉ subItalicAux r none :=
      subItalicAux_free r none nul (fun hm => h.1 (List.mem_cons_of_mem _ hm))
        (by simp [italBuf]) (by decide)
    have hCm : 'C' ∉ subItalicAux r none :=
      subItalicAux_free r none 'C' (fun hm => h.2 (List.mem_cons_of_mem _ hm))
        (by simp [italBuf]) (by decide)
    constructor
    · intro hm
      rcases List.mem_cons.mp hm with h' | h'
      · exact h.1 (List.mem_cons.mpr (Or.inl h'))
      · exact hnul h'
    · intro hm
      rcases List.mem_cons.mp hm with h' | h'
      · exact h.2 (List.mem_cons.mpr (Or.inl h'))
      · exact hCm h'
  | cons code cs =>
    obtain ⟨A, u, heq, hA1, hA2, hcode, hrest⟩ := h
    cases A with
    | nil =>
      rw [List.nil_append, placeholder_eq, List.cons_append] at heq
      injection heq with h1 h2
      subst h1
      have hlen : u.length ≤ n := by
        have := congrArg List.length h2
        simp only [List.length_append] at this
        omega
      rw [h2, subItalicAux_copy u (phTail_no_star i)]
      refine ⟨[], subItalicAux u none,
        by simp [placeholder_eq],
        (fun hx => by cases hx), (fun hx => by cases hx), hcode, ?_⟩
      exact ih u hlen none cs (i + 1) (by simpa [italVirtual] using hrest)
    | cons d A' =>
      rw [List.cons_append] at heq
      injection heq with h1 h2
      subst h1
      have hr' : ChunksT i r (code :: cs) :=
        ⟨A', u, h2, fun hm => hA1 (List.mem_cons_of_mem _ hm),
          fun hm => hA2 (List.mem_cons_of_mem _ hm), hcode, hrest⟩
      obtain ⟨B, u', hweq, hB1, hB2, hcode', hrest'⟩ :=
        ih r hr none (code :: cs) i (by simpa [italVirtual] using hr')
      refine ⟨c :: B, u', by rw [hweq, List.cons_append], ?_, ?_, hcode', hrest'⟩
      · intro hm
        rcases List.mem_cons.mp hm with h' | h'
        · exact hA1 (List.mem_cons.mpr (Or.inl h'))
        · exact hB1 h'
      · intro hm
        rcases List.mem_cons.mp hm with h' | h'
        · exact hA2 (List.mem_cons.mpr (Or.inl h'))
        · exact hB2 h'

theorem italic_chunks_aux :
    ∀ (n : Nat) (r : List Char), r.length ≤ n →
      ∀ (st : Option (List Char)) (cs : List (List Char)) (i : Nat),
        ChunksT i (italVirtual st ++ r) cs → ChunksT i (subItalicAux r st) cs := by
  intro n
  induction n with
  | zero =>
    intro r hr st cs i h
    have hr0 : r = [] := List.length_eq_zero.mp (Nat.le_zero.mp hr)
    subst hr0
    rw [show subItalicAux [] st = italVirtual st by cases st <;> rfl]
    rw [List.append_nil] at h
    exact h
  | succ n ih =>
    intro r hr st cs i h
    cases r with
    | nil =>
      rw [show subItalicAux [] st = italVirtual st by cases st <;> rfl]
      rw [List.append_nil] at h
      exact h
    | cons c r =>
      have hr' : r.length ≤ n := by simpa using hr
      cases st with
      | none =>
        by_cases hc : c = '*'
        · subst hc
          rw [show subItalicAux ('*' :: r) none = subItalicAux r (some []) by
            simp [subItalicAux]]
          apply ih r hr' (some []) cs i
          simpa [italVirtual] using h
        · rw [show subItalicAux (c :: r) none = c :: subItalicAux r none by
            simp [subItalicAux, hc]]
          exact ic_cons_none n ih c r hr' hc cs i (by simpa [italVirtual] using h)
      | some buf =>
        by_cases hc : c = '*'
        · subst hc
          by_cases hbuf : buf.isEmpty
          · have hbeq : buf = [] := List.isEmpty_iff.mp hbuf
            subst hbeq
            rw [show subItalicAux ('*' :: r) (some []) =
                '*' :: subItalicAux r (some []) by simp [subItalicAux]]
            have h1 : ChunksT i ('*' :: r) cs :=
              chunksT_drop_cons (c := '*') (by decide) (by simpa [italVirtual] using h)
            exact chunksT_cons_safe (c := '*') (by decide) (by decide)
              (ih r hr' (some []) cs i (by simpa [italVirtual] using h1))
          · rw [show subItalicAux ('*' :: r) (some buf) =
                "<em>".data ++ buf.reverse ++ "</em>".data ++
                  subItalicAux r none by simp [subItalicAux, hbuf]]
            have h' : ChunksT i ('*' :: (buf.reverse ++ ('*' :: r))) cs := by
              simpa [italVirtual, List.append_assoc] using h
            have h1 : ChunksT i (buf.reverse ++ ('*' :: r)) cs :=
              chunksT_drop_cons (c := '*') (by decide) h'
            have hexch := chunksT_exchange cs i buf.reverse
              (V := '*' :: r) (W := "</em>".data ++ subItalicAux r none)
              ⟨r, rfl⟩
              (fun j cs2 hv => by
                have hv1 : ChunksT j r cs2 := chunksT_drop_cons (c := '*') (by decide) hv
                have hv2 := ih r hr' none cs2 j (by simpa [italVirtual] using hv1)
                exact chunksT_append_safe hv2 "</em>".data (by decide) (by decide))
              h1
            have hfin := chunksT_append_safe hexch "<em>".data (by decide) (by decide)
            have heq2 : "<em>".data ++ buf.reverse ++ "</em>".data ++
                subItalicAux r none =
                "<em>".data ++ (buf.reverse ++ ("</em>".data ++
                  subItalicAux r none)) := by
              simp [List.append_assoc]
            rw [heq2]
            exact hfin
        · rw [show subItalicAux (c :: r) (some buf) =
              subItalicAux r (some (c :: buf)) by simp [subItalicAux, hc]]
          apply ih r hr' (some (c :: buf)) cs i
          simpa [italVirtual, List.append_assoc] using h

theorem bold_chunks {s : List Char} {cs : List (List Char)} {i : Nat}
    (h : ChunksT i s cs) : ChunksT i (subBold s) cs := by
  show ChunksT i (subBoldAux s .norm) cs
  exact bold_chunks_aux s.length s le_rfl .norm cs i (by simpa [boldVirtual] using h)

theorem italic_chunks {s : List Char} {cs : List (List Char)} {i : Nat}
    (h : ChunksT i s cs) : ChunksT i (subItalic s) cs := by
  show ChunksT i (subItalicAux s none) cs
  exact italic_chunks_aux s.length s le_rfl none cs i (by simpa [italVirtual] using h)

/-! The restore pass: each placeholder is replaced exactly once, and the
inserted styled spans survive the remaining replacements. -/

theorem replaceAll_copy_id {pat : List Char} {h0 : Char} {pt : List Char}
    (hp : pat = h0 :: pt) (repl : List Char) {x : List Char}
    (hx : ∀ c ∈ x, c ≠ h0) : replaceAll pat repl x = x := by
  have h := replaceAll_copy hp repl [] hx
  simpa [replaceAll_nil] using h

theorem restore_copy (cs : List (List Char)) :
    ∀ (j : Nat) (X y : List Char), nul ∉ X →
      restoreAux j cs (X ++ y) = X ++ restoreAux j cs y := by
  induction cs with
  | nil => intro j X y _; rfl
  | cons code cs ih =>
    intro j X y hX
    show restoreAux (j + 1) cs (replaceAll (htmlEscape (placeholder j))
      (inlineCodeSpan (htmlEscape code)) (X ++ y)) = _
    rw [replaceAll_copy (htmlEscape_placeholder_head j) _ y
      (fun c hc he => hX (he ▸ hc))]
    exact ih (j + 1) X _ hX

theorem chunksT_head_ne {k : Nat} {u : List Char} {cs : List (List Char)}
    (h : ChunksT k u cs) {d : Char} {u' : List Char} (he : u = d :: u') :
    d ≠ 'C' := by
  cases cs with
  | nil =>
    intro hd
    subst hd
    exact h.2 (by rw [he]; exact List.mem_cons_self _ _)
  | cons code cs =>
    obtain ⟨A, u2, heq, hA1, hA2, _, _⟩ := h
    cases A with
    | nil =>
      rw [he, List.nil_append, placeholder_eq, List.cons_append] at heq
      injection heq with h1 _
      subst h1
      decide
    | cons e A' =>
      rw [he, List.cons_append] at heq
      injection heq with h1 _
      subst h1
      intro hd
      subst hd
      exact hA2 (List.mem_cons_self _ _)

theorem replaceAll_chunks_id (repl : List Char) :
    ∀ (cs : List (List Char)) (j : Nat) (t : List Char), ChunksT j t cs →
      ∀ i : Nat, i < j → replaceAll (placeholder i) repl t = t := by
  intro cs
  induction cs with
  | nil =>
    intro j t h i _
    exact replaceAll_copy_id (placeholder_eq i) repl (fun c hc he => h.1 (he ▸ hc))
  | cons code cs ih =>
    intro j t h i hij
    obtain ⟨A, u, heq, hA1, hA2, hcode, hrest⟩ := h
    rw [heq,
      replaceAll_copy (placeholder_eq i) repl _ (fun c hc he => hA1 (he ▸ hc))]
    congr 1
    have hform : placeholder j ++ u =
        nul :: (("CODE".data ++ natDigits j) ++ (nul :: u)) := by
      rw [placeholder_eq]
      simp [List.append_assoc]
    rw [hform]
    have hsw1 : startsWith (placeholder i)
        (nul :: (("CODE".data ++ natDigits j) ++ (nul :: u))) = false := by
      rw [← hform]
      exact placeholder_cross (Nat.ne_of_lt hij) u
    rw [replaceAll_cons,
      if_neg (fun hand => by rw [hsw1] at hand; exact Bool.false_ne_true hand.2)]
    congr 1
    have hM : ∀ c ∈ "CODE".data ++ natDigits j, c ≠ nul := by
      intro c hc
      rcases List.mem_append.mp hc with hc | hc
      · exact (show ∀ y ∈ "CODE".data, y ≠ nul by decide) c hc
      · exact fun he => natDigits_nul_free j (he ▸ hc)
    rw [replaceAll_copy (placeholder_eq i) repl _ hM]
    congr 1
    have hsw2 : startsWith (placeholder i) (nul :: u) = false := by
      rw [placeholder_eq]
      show (nul == nul && startsWith ("CODE".data ++ (natDigits i ++ [nul])) u) = false
      rw [beq_self_eq_true, Bool.true_and]
      cases hu : u with
      | nil => rfl
      | cons d u' =>
        have hd : d ≠ 'C' := chunksT_head_ne hrest hu
        show startsWith ('C' :: ("ODE".data ++ (natDigits i ++ [nul]))) (d :: u') = false
        exact startsWith_head_ne hd
    rw [replaceAll_cons,
      if_neg (fun hand => by rw [hsw2] at hand; exact Bool.false_ne_true hand.2)]
    congr 1
    exact ih (j + 1) u hrest i (by omega)

theorem replaceAll_head_match {pat : List Char} {h0 : Char} {pt : List Char}
    (hp : pat = h0 :: pt) (repl : List Char) {u : List Char}
    (hnm : replaceAll pat repl u = u) :
    replaceAll pat repl (pat ++ u) = repl ++ u := by
  subst hp
  rw [List.cons_append, replaceAll_cons,
    if_pos ⟨by simp, by rw [← List.cons_append]; exact startsWith_append_self _ u⟩]
  simp only [List.length_cons, Nat.add_sub_cancel]
  rw [List.drop_left, hnm]

theorem inlineCodeSpan_nul_free {s : List Char} (h : nul ∉ s) :
    nul ∉ inlineCodeSpan (htmlEscape s) := by
  intro hm
  unfold inlineCodeSpan at hm
  rcases List.mem_append.mp hm with hm | hm
  · rcases List.mem_append.mp hm with hm | hm
    · rcases List.mem_append.mp hm with hm | hm
      · rcases List.mem_append.mp hm with hm | hm
        · rcases List.mem_append.mp hm with hm | hm
          · exact (show nul ∉ "<span style=".data by decide) hm
          · exact (show nul ∉ [qm] by decide) hm
        · exact (show nul ∉ styleInlineCode by decide) hm
      · exact (show nul ∉ [qm, '>'] by decide) hm
    · exact htmlEscape_not_mem (by decide) h hm
  · exact (show nul ∉ "</span>".data by decide) hm

theorem restore_contains :
    ∀ (cs : List (List Char)) (i : Nat) (X t : List Char), nul ∉ X →
      ChunksT i t cs → ∀ code ∈ cs, ∃ u v,
        restoreAux i cs (X ++ t) = u ++ (inlineCodeSpan (htmlEscape code) ++ v) := by
  intro cs
  induction cs with
  | nil =>
    intro i X t _ _ code hcode
    cases hcode
  | cons c0 cs ih =>
    intro i X t hX h code hcode
    obtain ⟨A, u, heq, hA1, hA2, hc0, hrest⟩ := h
    have hrepl : nul ∉ inlineCodeSpan (htmlEscape c0) := inlineCodeSpan_nul_free hc0
    have hXA : ∀ c ∈ X ++ A, c ≠ nul := by
      intro c hc he
      rcases List.mem_append.mp hc with hc | hc
      · exact hX (he ▸ hc)
      · exact hA1 (he ▸ hc)
    have hmat := replaceAll_head_match (placeholder_eq i)
      (inlineCodeSpan (htmlEscape c0))
      (replaceAll_chunks_id (inlineCodeSpan (htmlEscape c0)) cs (i + 1) u hrest i
        (by omega))
    have hstep : replaceAll (htmlEscape (placeholder i))
        (inlineCodeSpan (htmlEscape c0)) (X ++ t)
        = ((X ++ A) ++ inlineCodeSpan (htmlEscape c0)) ++ u := by
      rw [htmlEscape_placeholder, heq,
        show X ++ (A ++ (placeholder i ++ u)) = (X ++ A) ++ (placeholder i ++ u) by
          rw [List.append_assoc],
        replaceAll_copy (placeholder_eq i) (inlineCodeSpan (htmlEscape c0))
          (placeholder i ++ u) hXA,
        hmat]
      simp [List.append_assoc]
    have hres : restoreAux i (c0 :: cs) (X ++ t) =
        restoreAux (i + 1) cs (((X ++ A) ++ inlineCodeSpan (htmlEscape c0)) ++ u) := by
      show restoreAux (i + 1) cs (replaceAll (htmlEscape (placeholder i))
        (inlineCodeSpan (htmlEscape c0)) (X ++ t)) = _
      rw [hstep]
    have hXnul : nul ∉ (X ++ A) ++ inlineCodeSpan (htmlEscape c0) := by
      intro hm
      rcases List.mem_append.mp hm with hm | hm
      · rcases List.mem_append.mp hm with hm | hm
        · exact hX hm
        · exact hA1 hm
      · exact hrepl hm
    rcases List.mem_cons.mp hcode with rfl | hcode'
    · refine ⟨X ++ A, restoreAux (i + 1) cs u, ?_⟩
      rw [hres, restore_copy cs (i + 1) _ u hXnul, List.append_assoc]
    · obtain ⟨u', v', hiv⟩ :=
        ih (i + 1) ((X ++ A) ++ inlineCodeSpan (htmlEscape c0)) u hXnul hrest
          code hcode'
      exact ⟨u', v', by rw [hres]; exact hiv⟩

/-- C1 (amended): for every input line that avoids the placeholder
alphabet of the inline formatter (it contains no NUL character and no
`C`), the content of every backtick-delimited inline code span the
formatter extracts appears in the output HTML-escaped exactly once and
wrapped in the monospace-styled span, so the asterisks and angle
brackets inside it are never turned into bold or italic markup; and a
line that is exactly one such span (non-empty, backtick-free content)
is formatted as exactly the styled span wrapping the once-escaped
content, with no `<em>` and no `<strong>` anywhere in the output. -/
theorem claim_C1_code_span_protected (line : List Char)
    (h0 : nul ∉ line) (hC : 'C' ∉ line) :
    (∀ code ∈ (extractAux 0 line none).2, ∃ u v,
        processInlineFormatting line = u ++ (inlineCodeSpan (htmlEscape code) ++ v)) ∧
    (∀ s : List Char, s ≠ [] → (∀ c ∈ s, c ≠ bq) →
        processInlineFormatting (bq :: (s ++ [bq])) = inlineCodeSpan (htmlEscape s) ∧
        countOcc "<em>".data (processInlineFormatting (bq :: (s ++ [bq]))) = 0 ∧
        countOcc "<strong>".data (processInlineFormatting (bq :: (s ++ [bq]))) = 0) := by
  constructor
  · intro code hcode
    have hext := extract_chunks line none 0 h0 hC (by intro buf hb; cases hb)
    have h1 := escape_chunks (extractAux 0 line none).2 0 _ hext
    have h2 := bold_chunks h1
    have h3 := italic_chunks h2
    have h4 := restore_contains (extractAux 0 line none).2 0 []
      (subItalic (subBold (htmlEscape (extractAux 0 line none).1)))
      (by intro hm; cases hm) h3 code hcode
    simpa [processInlineFormatting] using h4
  · intro s hne hbq
    have h := inline_code_single hne hbq
    exact ⟨h, by rw [h]; exact countOcc_em_inlineCodeSpan s,
      by rw [h]; exact countOcc_strong_inlineCodeSpan s⟩

/-- Counterexample to C1 as stated: the pure-ASCII line
`` `a` `b`CODE0`c` `` contains three inline code spans (contents `a`,
`b`, `c`), yet the output contains no styled span wrapping `b` and none
wrapping `c`: the trailing NUL of `b`'s placeholder, the literal text
`CODE0`, and the leading NUL of `c`'s placeholder together form a
second occurrence of placeholder 0, so the restore loop's
`str.replace` rewrites it into a second copy of `a`'s span (which
appears twice) and leaves two stray NUL bytes behind. -/
theorem claim_C1_counterexample :
    "b".data ∈ (extractAux 0 "`a` `b`CODE0`c`".data none).2 ∧
    countOcc (inlineCodeSpan (htmlEscape "b".data))
      (processInlineFormatting "`a` `b`CODE0`c`".data) = 0 ∧
    countOcc (inlineCodeSpan (htmlEscape "c".data))
      (processInlineFormatting "`a` `b`CODE0`c`".data) = 0 ∧
    countOcc (inlineCodeSpan (htmlEscape "a".data))
      (processInlineFormatting "`a` `b`CODE0`c`".data) = 2 ∧
    countOcc [nul] (processInlineFormatting "`a` `b`CODE0`c`".data) = 2 := by
  refine ⟨by decide, by decide, by decide, by decide, by decide⟩

/-- Witness for the amended C1: a mixed line with two code spans, bold
text between them, and plain prose around them keeps each span's
content once-escaped inside a styled span; and the spec's `` `*args` ``
example yields the styled span with the literal `*args` and no
emphasis markup. -/
theorem claim_C1_witness :
    "*a*".data ∈ (extractAux 0 "x `*a*` **b** `c<d` y".data none).2 ∧
    (∃ u v, processInlineFormatting "x `*a*` **b** `c<d` y".data =
        u ++ (inlineCodeSpan (htmlEscape "*a*".data) ++ v)) ∧
    processInlineFormatting "`*args`".data = inlineCodeSpan "*args".data ∧
    countOcc "<em>".data (processInlineFormatting "`*args`".data) = 0 := by
  refine ⟨by decide,
    (claim_C1_code_span_protected "x `*a*` **b** `c<d` y".data (by decide)
      (by decide)).1 "*a*".data (by decide), ?_, ?_⟩
  · have h2 := (claim_C1_code_span_protected "`*args`".data (by decide)
      (by decide)).2 "*args".data (by decide) (by decide)
    have heq : "`*args`".data = bq :: ("*args".data ++ [bq]) := by decide
    have hesc : htmlEscape "*args".data = "*args".data := by decide
    rw [heq]
    exact hesc ▸ h2.1
  · have h2 := (claim_C1_code_span_protected "`*args`".data (by decide)
      (by decide)).2 "*args".data (by decide) (by decide)
    have heq : "`*args`".data = bq :: ("*args".data ++ [bq]) := by decide
    rw [heq]
    exact h2.2.1

end EvernoteConn
